import Mathlib

/-!
# Storage-class-memory manager

A shallow embedding of `scm.c` (the persistent bump-allocating region) and of
`avl.c` (the AVL index of de-duplicated strings with occurrence counts that
lives inside the region), followed by theorems about them.

Conventions of the embedding.

* `size_t` and `uint64_t` values are natural numbers; every arithmetic
  operation the source performs on them is taken modulo `2 ^ 64`.
* `int` heights are integers (signed overflow is undefined in C and a tree of
  height `2 ^ 31` does not fit in a 64-bit address space).
* A C string is the list of its bytes before the terminating NUL.
* A `struct node *` is a `Node`: `Node.null` is the NULL pointer, `Node.mk` a
  pointer to a node together with what it points to.  Nodes are never shared
  between two parents, so the pointer graph below the root is a tree.
* For the functions of `avl.c` the result `none` stands for a fault: a NULL
  pointer is dereferenced, an `assert` fails, or bytes outside the mapping are
  written.  A returned NULL `struct node *` is an ordinary value (`Node.null`).
* `scm_malloc` and `scm_open` touch no memory that can be missing: their
  result `none` is the returned NULL pointer.
* `scm_strdup` and `avl_open` can both fault and return NULL: their result
  `none` is a fault, `some none` the returned NULL pointer.
* The mapping of a handle is the one `scm_open` makes: `length` bytes that
  start `META_SIZE` bytes below `mem`.  The nodes and strings of a tree and the
  state block exist, so they lie in the mapping; only the bytes of a new
  allocation can lie outside it.
-/

namespace SCM

/-! ## The region: `scm.c` -/

/-- The constant `SCM_SIGNATURE`, the magic number of a region file. -/
def SCM_SIGNATURE : Nat := 0xDEEDBEED

/-- The constant `META_SIZE`, the size of the metadata area in bytes. -/
def META_SIZE : Nat := 24

/-- The constant `VM_ADDR`, the fixed virtual address of the mapping. -/
def VM_ADDR : Nat := 0x600000000000

/-- The header `struct metadata` at the start of the mapped file. -/
structure Metadata where
  size : Nat
  signature : Nat
  checksum : Nat
deriving DecidableEq, Repr

/-- The handle `struct scm`. -/
structure Scm where
  fd : Int
  mem : Nat
  size : Nat
  length : Nat
deriving DecidableEq, Repr

/-- The checksum of a header: `meta->size ^ meta->signature`. -/
def calculate_checksum (m : Metadata) : Nat := m.size ^^^ m.signature

/-- Writes a fresh header and resets the handle's utilized size. -/
def initialize_metadata (scm : Scm) (m : Metadata) : Scm × Metadata :=
  let m1 : Metadata := { m with size := 0 }
  let m2 : Metadata := { m1 with signature := SCM_SIGNATURE }
  let m3 : Metadata := { m2 with checksum := calculate_checksum m2 }
  ({ scm with size := 0 }, m3)

/-- Validates the header and loads the utilized size; the first component is
the returned `int` (`-1` failure, `0` success). -/
def load_metadata (scm : Scm) (m : Metadata) : Int × Scm :=
  if m.signature ≠ SCM_SIGNATURE then (-1, scm)
  else if m.checksum ≠ calculate_checksum m then (-1, scm)
  else (0, { scm with size := m.size })

/-- Writes the utilized size back into the header and recomputes the checksum. -/
def store_metadata (scm : Scm) (m : Metadata) : Metadata :=
  let m1 : Metadata := { m with size := scm.size }
  { m1 with checksum := calculate_checksum m1 }

/-- What the operating system answers to the calls `scm_open` makes. -/
structure Os where
  /-- Whether `malloc(sizeof (struct scm))` succeeds. -/
  malloc_ok : Bool
  /-- The result of `open(pathname, O_RDWR)`. -/
  open_fd : Int
  /-- The value of `S_ISREG(st.st_mode)`. -/
  is_reg : Bool
  /-- The value of `st.st_size`. -/
  st_size : Nat
  /-- The value of `page_size()`, positive. -/
  page : Nat
  /-- The value of `sbrk(0)`. -/
  brk : Int
  /-- Whether `fstat` and `init_zero` of the truncate branch succeed. -/
  zero_ok : Bool
  /-- Whether `mmap` returns an address, not `MAP_FAILED`. -/
  mmap_ok : Bool
  /-- The first 24 bytes of the file as mapped. -/
  header : Metadata
deriving DecidableEq, Repr

/-- Sets `scm->length` to the page-aligned size of a regular file; the result
is `(scm->length) ? -1 : 0` converted to `size_t`. -/
def file_size (os : Os) (scm : Scm) : Nat × Scm :=
  let scm1 : Scm :=
    if os.is_reg then { scm with length := (os.st_size / os.page) * os.page } else scm
  (if scm1.length ≠ 0 then 2 ^ 64 - 1 else 0, scm1)

/-- Opens the region; `none` is the returned NULL.  The second component is the
header in the mapped memory after the call. -/
def scm_open (os : Os) (truncate : Bool) : Option (Scm × Metadata) :=
  if !os.malloc_ok then none
  else
    let scm0 : Scm := { fd := 0, mem := 0, size := 0, length := 0 }
    let scm1 : Scm := { scm0 with fd := os.open_fd }
    if scm1.fd = -1 then none
    else
      let (fs, scm2) := file_size os scm1
      if fs = 0 then none
      else
        let vm_addr : Int := ((VM_ADDR / os.page) * os.page : Nat)
        if vm_addr < os.brk then none
        else if truncate && !os.zero_ok then none
        else if !os.mmap_ok then none
        else
          let scm3 : Scm := { scm2 with mem := vm_addr.toNat }
          let hdr : Metadata := if truncate then ⟨0, 0, 0⟩ else os.header
          let (scm4, hdr1) :=
            if truncate then initialize_metadata scm3 hdr
            else ((load_metadata scm3 hdr).2, hdr)
          some ({ scm4 with mem := scm4.mem + META_SIZE }, hdr1)

/-- Bump allocation; `none` is the returned NULL (the handle is untouched),
otherwise the returned address and the advanced handle. -/
def scm_malloc (scm : Scm) (n : Nat) : Option (Nat × Scm) :=
  if (scm.size + n) % 2 ^ 64 ≤ scm.length then
    some (scm.mem + scm.size, { scm with size := (scm.size + n) % 2 ^ 64 })
  else none

/-- A C string: its bytes before the terminating NUL. -/
abbrev Item := List Nat

/-- The `n` bytes at address `p` lie in the mapping of the handle: `scm_open`
maps `length` bytes and sets `mem` to `META_SIZE` bytes above their start. -/
def scm_mapped (scm : Scm) (p n : Nat) : Bool :=
  decide (scm.mem ≤ p + META_SIZE ∧ p + n + META_SIZE ≤ scm.mem + scm.length)

/-- Duplicates a (non-NULL) string into the region: `strlen(s) + 1` bytes are
allocated and the string is copied into them.  The result `none` is a fault
(the `strcpy` writes outside the mapping), `some none` the returned NULL. -/
def scm_strdup (scm : Scm) (s : Item) : Option (Option (Nat × Scm)) :=
  match scm_malloc scm ((s.length + 1) % 2 ^ 64) with
  | none => some none
  | some (p, scm1) =>
    if scm_mapped scm1 p (s.length + 1) then some (some (p, scm1)) else none

/-- Heap base of the region. -/
def scm_mbase (scm : Scm) : Nat := scm.mem

/-- Utilized bytes of the region. -/
def scm_utilized (scm : Scm) : Nat := scm.size

/-- Capacity of the region. -/
def scm_capacity (scm : Scm) : Nat := scm.length

/-! ## The index: `avl.c` -/

/-- The C library `strcmp` on byte strings, up to the sign of the result (all
that the C standard fixes and all that `avl.c` inspects): bytes are compared as
unsigned values and a proper prefix is smaller. -/
def strcmp : Item → Item → Int
  | [], [] => 0
  | [], _ :: _ => -1
  | _ :: _, [] => 1
  | a :: s, b :: t => if a < b then -1 else if b < a then 1 else strcmp s t

/-- Modelled from the spec: `safe_strlen` is declared outside the sources at
hand; the spec requires a non-empty item, so it is the length of the string,
`0` for the empty one. -/
def safe_strlen (s : Item) : Nat := s.length

/-- A `struct node *`. -/
inductive Node where
  | null : Node
  | mk (depth : Int) (count : Nat) (item : Item) (left right : Node) : Node
deriving DecidableEq, Repr

/-- The persisted `struct state`. -/
structure State where
  items : Nat
  unique : Nat
  root : Node
deriving DecidableEq, Repr

/-- The handle `struct avl`. -/
structure Avl where
  state : State
  scm : Scm
deriving DecidableEq, Repr

/-- The size `sizeof (struct node)` on an LP64 target. -/
def sizeof_node : Nat := 40

/-- The size `sizeof (struct state)` on an LP64 target. -/
def sizeof_state : Nat := 24

/-- Stored height of a subtree, `-1` for NULL. -/
def delta : Node → Int
  | .null => -1
  | .mk d _ _ _ _ => d

/-- Balance factor from the stored heights; dereferences `node`. -/
def balance : Node → Option Int
  | .null => none
  | .mk _ _ _ l r => some (delta l - delta r)

/-- Height of a node with children `a` and `b`, from their stored heights. -/
def depth (a b : Node) : Int :=
  if delta a > delta b then delta a + 1 else delta b + 1

/-- Single right rotation; dereferences `node` and `node->left`. -/
def rotate_right : Node → Option Node
  | .mk _ c i (.mk _ lc li ll lr) r =>
    let node := Node.mk (depth lr r) c i lr r
    some (.mk (depth ll node) lc li ll node)
  | _ => none

/-- Single left rotation; dereferences `node` and `node->right`. -/
def rotate_left : Node → Option Node
  | .mk _ c i l (.mk _ rc ri rl rr) =>
    let node := Node.mk (depth l rl) c i l rl
    some (.mk (depth rr node) rc ri node rr)
  | _ => none

/-- Double rotation: left on the left child, then right on the node. -/
def rotate_left_right : Node → Option Node
  | .null => none
  | .mk d c i l r =>
    match rotate_left l with
    | none => none
    | some l1 => rotate_right (.mk d c i l1 r)

/-- Double rotation: right on the right child, then left on the node. -/
def rotate_right_left : Node → Option Node
  | .null => none
  | .mk d c i l r =>
    match rotate_right r with
    | none => none
    | some r1 => rotate_left (.mk d c i l r1)

/-- The statement `root->depth = depth(root->left, root->right)`. -/
def set_depth : Node → Option Node
  | .null => none
  | .mk _ c i l r => some (.mk (depth l r) c i l r)

/-- The rebalancing block of `update` after an insertion into the left
subtree (`if (1 < abs(balance(root))) ...` with `root->left->item`). -/
def update_fix_left (item : Item) (root : Node) : Option Node :=
  match balance root with
  | none => none
  | some b =>
    if 1 < |b| then
      match root with
      | .mk _ _ _ (.mk _ _ li _ _) _ =>
        if 0 > strcmp item li then rotate_right root else rotate_left_right root
      | _ => none
    else some root

/-- The rebalancing block of `update` after an insertion into the right
subtree (`if (1 < abs(balance(root))) ...` with `root->right->item`). -/
def update_fix_right (item : Item) (root : Node) : Option Node :=
  match balance root with
  | none => none
  | some b =>
    if 1 < |b| then
      match root with
      | .mk _ _ _ _ (.mk _ _ ri _ _) =>
        if 0 < strcmp item ri then rotate_left root else rotate_right_left root
      | _ => none
    else some root

/-- The recursive insertion.  The result pairs the returned pointer with the
handle after the call (counters and region).  At a NULL position the new node
is zeroed by `memset` right after its allocation: a fault when its bytes are
not in the mapping. -/
def update (avl : Avl) : Node → Item → Option (Node × Avl)
  | .null, item =>
    match scm_malloc avl.scm sizeof_node with
    | none => some (.null, avl)
    | some (p, scm1) =>
      if !scm_mapped scm1 p sizeof_node then none
      else
        match scm_strdup scm1 item with
        | none => none
        | some none => some (.null, { avl with scm := scm1 })
        | some (some (_, scm2)) =>
          some (.mk 0 ((0 + 1) % 2 ^ 64) item .null .null,
            { state := { avl.state with
                items := (avl.state.items + 1) % 2 ^ 64,
                unique := (avl.state.unique + 1) % 2 ^ 64 },
              scm := scm2 })
  | .mk d c i l r, item =>
    if strcmp item i = 0 then
      some (.mk (depth l r) ((c + 1) % 2 ^ 64) i l r,
        { avl with state := { avl.state with items := (avl.state.items + 1) % 2 ^ 64 } })
    else if 0 > strcmp item i then
      match update avl l item with
      | none => none
      | some (l1, avl1) =>
        match update_fix_left item (.mk d c i l1 r) with
        | none => none
        | some root =>
          match set_depth root with
          | none => none
          | some root1 => some (root1, avl1)
    else if 0 < strcmp item i then
      match update avl r item with
      | none => none
      | some (r1, avl1) =>
        match update_fix_right item (.mk d c i l r1) with
        | none => none
        | some root =>
          match set_depth root with
          | none => none
          | some root1 => some (root1, avl1)
    else some (.mk (depth l r) c i l r, avl)

/-- In-order walk; the result lists the visitor's calls `fnc(arg, item, count)`
in the order they are made. -/
def traverse : Node → List (Item × Nat)
  | .null => []
  | .mk _ c i l r => traverse l ++ (i, c) :: traverse r

/-- The else-branch of `avl_open`: the state block is the first allocation of
a fresh region and is zeroed by `memset`.  The result `none` is a fault (the
block is not in the mapping), `some none` the returned NULL. -/
def avl_open_fresh (scm : Scm) : Option (Option Avl) :=
  match scm_malloc scm sizeof_state with
  | none => some none
  | some (p, scm1) =>
    if scm_mapped scm1 p sizeof_state then
      some (some { state := { items := 0, unique := 0, root := .null }, scm := scm1 })
    else none

/-- Inserts an item; the first component of the result is the returned `int`. -/
def avl_insert (avl : Avl) (item : Item) : Option (Int × Avl) :=
  if safe_strlen item = 0 then none
  else
    match update avl avl.state.root item with
    | none => none
    | some (.null, avl1) => some (-1, avl1)
    | some (root, avl1) => some (0, { avl1 with state := { avl1.state with root := root } })

/-- Leftmost node of a subtree (NULL for NULL). -/
def find_next_min_node : Node → Node
  | .null => .null
  | .mk d c i .null r => .mk d c i .null r
  | .mk _ _ _ (.mk d c i l r) _ => find_next_min_node (.mk d c i l r)

/-- The rebalancing block shared by `remove_min` and `remove_node`
(`if (1 < abs(balance(node))) ...` with `balance(node->right)`). -/
def remove_fix (node : Node) : Option Node :=
  match balance node with
  | none => none
  | some b =>
    if 1 < |b| then
      match node with
      | .null => none
      | .mk _ _ _ _ r =>
        match balance r with
        | none => none
        | some br => if 0 < br then rotate_right_left node else rotate_left node
    else some node

/-- Removes the leftmost node of a subtree; dereferences `node`. -/
def remove_min : Node → Option Node
  | .null => none
  | .mk _ _ _ .null r => some r
  | .mk d c i (.mk ld lc li ll lr) r =>
    match remove_min (.mk ld lc li ll lr) with
    | none => none
    | some l1 =>
      match remove_fix (.mk d c i l1 r) with
      | none => none
      | some node => set_depth node

/-- The recursive removal.  The result pairs the returned pointer with the
handle after the call (counters and region). -/
def remove_node (avl : Avl) : Node → Item → Option (Node × Avl)
  | .null, _ => some (.null, avl)
  | .mk d c i l r, item =>
    if strcmp item i = 0 then
      if c > 1 then
        some (.mk d (c - 1) i l r,
          { avl with state := { avl.state with items := (avl.state.items + (2 ^ 64 - 1)) % 2 ^ 64 } })
      else if l = .null ∨ r = .null then
        some (if l ≠ .null then l else r,
          { avl with state := { avl.state with
              items := (avl.state.items + (2 ^ 64 - 1)) % 2 ^ 64,
              unique := (avl.state.unique + (2 ^ 64 - 1)) % 2 ^ 64 } })
      else
        match find_next_min_node r with
        | .null => some (.null, avl)
        | .mk _ mc mi _ _ =>
          match scm_strdup avl.scm mi with
          | none => none
          | some none => some (.null, avl)
          | some (some (_, scm1)) =>
            match remove_min r with
            | none => none
            | some r1 =>
              match remove_fix (.mk d mc mi l r1) with
              | none => none
              | some node =>
                match set_depth node with
                | none => none
                | some node1 =>
                  some (node1,
                    { state := { avl.state with
                        items := (avl.state.items + (2 ^ 64 - 1)) % 2 ^ 64,
                        unique := (avl.state.unique + (2 ^ 64 - 1)) % 2 ^ 64 },
                      scm := scm1 })
    else if strcmp item i < 0 then
      match remove_node avl l item with
      | none => none
      | some (l1, avl1) =>
        match remove_fix (.mk d c i l1 r) with
        | none => none
        | some node =>
          match set_depth node with
          | none => none
          | some node1 => some (node1, avl1)
    else
      match remove_node avl r item with
      | none => none
      | some (r1, avl1) =>
        match remove_fix (.mk d c i l r1) with
        | none => none
        | some node =>
          match set_depth node with
          | none => none
          | some node1 => some (node1, avl1)

/-- Removes one occurrence of an item; the first component of the result is
the returned `int`. -/
def avl_remove (avl : Avl) (item : Item) : Option (Int × Avl) :=
  if item = [] then none
  else if avl.state.root = .null then some (-1, avl)
  else
    match remove_node avl avl.state.root item with
    | none => none
    | some (root, avl1) => some (0, { avl1 with state := { avl1.state with root := root } })

/-- The search loop of `avl_exists`. -/
def exists_loop : Node → Item → Nat
  | .null, _ => 0
  | .mk _ c i l r, item =>
    if strcmp item i = 0 then c
    else if 0 > strcmp item i then exists_loop l item else exists_loop r item

/-- Occurrence count of an item, `0` if absent. -/
def avl_exists (avl : Avl) (item : Item) : Option Nat :=
  if safe_strlen item = 0 then none else some (exists_loop avl.state.root item)

/-- The visitor calls made by a traversal of the whole tree. -/
def avl_traverse (avl : Avl) : List (Item × Nat) := traverse avl.state.root

/-- The counter of inserted items, duplicates included. -/
def avl_items (avl : Avl) : Nat := avl.state.items

/-- The counter of distinct items. -/
def avl_unique (avl : Avl) : Nat := avl.state.unique

/-! ## Vocabulary of the specification -/

/-- True height of a subtree: `-1` for an absent one. -/
def height : Node → Int
  | .null => -1
  | .mk _ _ _ l r => 1 + max (height l) (height r)

/-- Every node has balance factor `height(left) - height(right)` in `{-1, 0, 1}`. -/
def balanced : Node → Bool
  | .null => true
  | .mk _ _ _ l r =>
    balanced l && balanced r && decide (-1 ≤ height l - height r) &&
      decide (height l - height r ≤ 1)

/-- Every node's stored `depth` field is the true height of its subtree. -/
def depth_ok : Node → Bool
  | .null => true
  | .mk d _ _ l r => depth_ok l && depth_ok r && decide (d = 1 + max (height l) (height r))

/-- Shape of a subtree whose height has just grown by an insertion of `x`: a
fresh leaf, or a node heavy on the side `x` went to. -/
def grown (x : Item) : Node → Prop
  | .null => False
  | .mk _ _ i l r =>
    (l = .null ∧ r = .null) ∨ (strcmp x i < 0 ∧ height l = height r + 1) ∨
      (0 < strcmp x i ∧ height r = height l + 1)

/-- Number of nodes reachable from a pointer. -/
def node_count : Node → Nat
  | .null => 0
  | .mk _ _ _ l r => node_count l + 1 + node_count r

/-- Sum of the occurrence counts of the nodes reachable from a pointer. -/
def count_sum : Node → Nat
  | .null => 0
  | .mk _ c _ l r => count_sum l + c + count_sum r

/-- A list of visitor calls is strictly ascending in `strcmp` order. -/
def ascending (l : List (Item × Nat)) : Prop :=
  l.Pairwise (fun a b => strcmp a.1 b.1 < 0)

/-- The count listed for `y` (first match), `0` if `y` is not listed. -/
def listed (y : Item) : List (Item × Nat) → Nat
  | [] => 0
  | (i, c) :: l => if i = y then c else listed y l

/-- One more occurrence of `x` in a sorted list of (string, count) entries. -/
def ins_list (x : Item) : List (Item × Nat) → List (Item × Nat)
  | [] => [(x, 1)]
  | (i, c) :: l =>
    if strcmp x i = 0 then (i, (c + 1) % 2 ^ 64) :: l
    else if strcmp x i < 0 then (x, 1) :: (i, c) :: l
    else (i, c) :: ins_list x l

/-- One occurrence of `x` less: its count is decremented when above `1`,
otherwise its entry is deleted; the other entries are untouched. -/
def del_list (x : Item) : List (Item × Nat) → List (Item × Nat)
  | [] => []
  | (i, c) :: l =>
    if i = x then (if 1 < c then (i, c - 1) :: l else l) else (i, c) :: del_list x l

/-- Every region allocation attempted by `update avl root item` succeeds
(`scm_malloc` returns an address): the node and its string at the NULL
position the search for `item` ends in. -/
def update_allocs (avl : Avl) : Node → Item → Bool
  | .null, item =>
    match scm_malloc avl.scm sizeof_node with
    | none => false
    | some (_, scm1) => (scm_malloc scm1 ((item.length + 1) % 2 ^ 64)).isSome
  | .mk _ _ i l r, item =>
    if strcmp item i = 0 then true
    else if 0 > strcmp item i then update_allocs avl l item
    else if 0 < strcmp item i then update_allocs avl r item
    else true

/-- Every region allocation attempted by `remove_node avl node item` succeeds
(`scm_malloc` returns an address): the one for the copy of the successor's
string when the node found has count at most `1` and two children. -/
def remove_allocs (avl : Avl) : Node → Item → Bool
  | .null, _ => true
  | .mk _ c i l r, item =>
    if strcmp item i = 0 then
      if c > 1 then true
      else if l = .null ∨ r = .null then true
      else
        match find_next_min_node r with
        | .null => true
        | .mk _ _ mi _ _ => (scm_malloc avl.scm ((mi.length + 1) % 2 ^ 64)).isSome
    else if strcmp item i < 0 then remove_allocs avl l item
    else remove_allocs avl r item

/-- The handle after a sequence of `avl_insert` calls, whatever each call
returns; `none` if one of them faults. -/
def avl_insert_all (avl : Avl) : List Item → Option Avl
  | [] => some avl
  | x :: xs =>
    match avl_insert avl x with
    | none => none
    | some (_, avl1) => avl_insert_all avl1 xs

/-- Every region allocation attempted during a sequence of `avl_insert` calls
succeeds. -/
def avl_insert_all_allocs (avl : Avl) : List Item → Bool
  | [] => true
  | x :: xs =>
    update_allocs avl avl.state.root x &&
      match avl_insert avl x with
      | none => false
      | some (_, avl1) => avl_insert_all_allocs avl1 xs

/-- A call of the mutating interface. -/
inductive Call where
  | insert (item : Item) : Call
  | remove (item : Item) : Call
deriving DecidableEq, Repr

/-- One call of the mutating interface. -/
def avl_call (avl : Avl) : Call → Option (Int × Avl)
  | .insert item => avl_insert avl item
  | .remove item => avl_remove avl item

/-- Every region allocation attempted by one call succeeds. -/
def avl_call_allocs (avl : Avl) : Call → Bool
  | .insert item => update_allocs avl avl.state.root item
  | .remove item => remove_allocs avl avl.state.root item

/-- The handle after a sequence of calls, whatever each call returns; `none`
if one of them faults. -/
def avl_calls (avl : Avl) : List Call → Option Avl
  | [] => some avl
  | k :: ks =>
    match avl_call avl k with
    | none => none
    | some (_, avl1) => avl_calls avl1 ks

/-- Every region allocation attempted during a sequence of calls succeeds. -/
def avl_calls_allocs (avl : Avl) : List Call → Bool
  | [] => true
  | k :: ks =>
    avl_call_allocs avl k &&
      match avl_call avl k with
      | none => false
      | some (_, avl1) => avl_calls_allocs avl1 ks

/-- The count of the first entry listed for `y`, if there is one. -/
def entry (y : Item) : List (Item × Nat) → Option Nat
  | [] => none
  | (i, c) :: l => if i = y then some c else entry y l

/-- The counters after one more occurrence of `x` was recorded in the entries `l`. -/
def ins_state (x : Item) (l : List (Item × Nat)) (s : State) : State :=
  match entry x l with
  | some _ => { s with items := (s.items + 1) % 2 ^ 64 }
  | none => { s with items := (s.items + 1) % 2 ^ 64, unique := (s.unique + 1) % 2 ^ 64 }

/-- The counters after one occurrence of `x` was taken from the entries `l`. -/
def del_state (x : Item) (l : List (Item × Nat)) (s : State) : State :=
  match entry x l with
  | none => s
  | some c =>
    if 1 < c then { s with items := (s.items + (2 ^ 64 - 1)) % 2 ^ 64 }
    else { s with items := (s.items + (2 ^ 64 - 1)) % 2 ^ 64,
                  unique := (s.unique + (2 ^ 64 - 1)) % 2 ^ 64 }

/-- A sample handle: the region of a 4096-byte file after `scm_open` with
truncate. -/
def sample_scm : Scm := { fd := 3, mem := 0x600000000018, size := 0, length := 4096 }

/-- A sample index: freshly opened on `sample_scm`, the state block allocated
and zeroed. -/
def sample_avl : Avl :=
  { state := { items := 0, unique := 0, root := .null },
    scm := { sample_scm with size := 24 } }

/-- The counters `s` agree with the entries `l` of a walk: `l` is sorted and
lists no zero count, `unique` is the number of entries, `items` the sum of
their counts, and that sum is at most `n`. -/
def walk_inv (l : List (Item × Nat)) (s : State) (n : Nat) : Prop :=
  ascending l ∧ (∀ p ∈ l, 1 ≤ p.2) ∧ s.unique = l.length ∧
    s.items = (l.map Prod.snd).sum ∧ s.items ≤ n

/-- A sample tree: `sample_avl` after the inserts `5, 3, 8, 2, 4, 7, 9` (one-byte
strings); its root has two children. -/
def sample_built : Avl :=
  { state :=
      { items := 7, unique := 7,
        root := Node.mk 2 1 [5]
          (Node.mk 1 1 [3] (Node.mk 0 1 [2] Node.null Node.null)
            (Node.mk 0 1 [4] Node.null Node.null))
          (Node.mk 1 1 [8] (Node.mk 0 1 [7] Node.null Node.null)
            (Node.mk 0 1 [9] Node.null Node.null)) },
    scm := { sample_scm with size := 318 } }

/-- The handle `sample_built` after `avl_remove` of its root item `5`. -/
def sample_removed : Avl :=
  { state :=
      { items := 6, unique := 6,
        root := Node.mk 2 1 [7]
          (Node.mk 1 1 [3] (Node.mk 0 1 [2] Node.null Node.null)
            (Node.mk 0 1 [4] Node.null Node.null))
          (Node.mk 1 1 [8] Node.null (Node.mk 0 1 [9] Node.null Node.null)) },
    scm := { sample_scm with size := 320 } }

/-- Closes the region: the header that `store_metadata` leaves in the file
(the flush, the unmapping and the release of the descriptor are effects on the
operating system only). -/
def scm_close (scm : Scm) (m : Metadata) : Metadata :=
  store_metadata { scm with mem := scm.mem - META_SIZE } m

/-- What the backing file holds for the index: the header, and the state
block (with the tree below its root pointer) that the bytes at the heap base
decode to. -/
structure File where
  header : Metadata
  state : State
deriving DecidableEq, Repr

/-- Closes the index: what the file then holds.  The mapping is shared with
the file, so the state block in the file is the one of the handle, and
`scm_close` has written the header. -/
def avl_close (avl : Avl) (m : Metadata) : File :=
  { header := scm_close avl.scm m, state := avl.state }

/-- Opens the index.  The result `none` is a fault, `some none` the returned
NULL.  `malloc_avl_ok` says whether the `malloc` of the `struct avl` succeeds
and `heap` is the state block that the bytes at the heap base of the file
hold, used when the region is already in use.  When `scm_open` fails the code
calls `avl_close`, whose `scm_close` dereferences the NULL region handle. -/
def avl_open (os : Os) (malloc_avl_ok : Bool) (heap : State) (truncate : Bool) :
    Option (Option Avl) :=
  if !malloc_avl_ok then some none
  else
    match scm_open os truncate with
    | none => none
    | some (scm, _) =>
      if scm_utilized scm ≠ 0 then some (some { state := heap, scm := scm })
      else avl_open_fresh scm

/-- A request to the allocator: `scm_malloc(scm, n)` or `scm_strdup(scm, s)`. -/
inductive Request where
  | malloc (n : Nat) : Request
  | strdup (s : Item) : Request
deriving DecidableEq, Repr

/-- The number of bytes a request asks for. -/
def request_size : Request → Nat
  | .malloc n => n
  | .strdup s => s.length + 1

/-- One call of the allocator.  The result `none` is a fault, `some none` the
returned NULL. -/
def scm_request (scm : Scm) : Request → Option (Option (Nat × Scm))
  | .malloc n => some (scm_malloc scm n)
  | .strdup s => scm_strdup scm s

/-- The handle after one call of the allocator, failed or not: both calls
change the handle through `scm_malloc` only (when the copy of `scm_strdup`
faults, the handle has already been advanced). -/
def scm_after (scm : Scm) : Request → Scm
  | .malloc n =>
    match scm_malloc scm n with
    | none => scm
    | some (_, scm1) => scm1
  | .strdup s =>
    match scm_malloc scm ((s.length + 1) % 2 ^ 64) with
    | none => scm
    | some (_, scm1) => scm1

/-- The tree with the count of the node the search for `x` ends in raised by
one; structure, strings, other counts and stored heights are kept. -/
def bump (x : Item) : Node → Node
  | .null => .null
  | .mk d c i l r =>
    if strcmp x i = 0 then .mk d (c + 1) i l r
    else if strcmp x i < 0 then .mk d c i (bump x l) r
    else .mk d c i l (bump x r)

/-- A sample answer of the operating system: a regular file of 4096 bytes,
pages of 4096 bytes, every call succeeding; the header is all zero. -/
def sample_os : Os :=
  { malloc_ok := true, open_fd := 3, is_reg := true, st_size := 4096, page := 4096,
    brk := 0x555555560000, zero_ok := true, mmap_ok := true,
    header := { size := 0, signature := 0, checksum := 0 } }

/-- A sample handle with an unbalanced tree: `sample_avl` after the inserts
`5, 3, 8, 2, 4, 9, 1` and the removal of `9`. -/
def sample_unbalanced : Avl :=
  { state :=
      { items := 6, unique := 6,
        root := Node.mk 4 1 [8]
          (Node.mk 3 1 [5]
            (Node.mk 2 1 [3]
              (Node.mk 1 1 [2] (Node.mk 0 1 [1] Node.null Node.null) Node.null)
              (Node.mk 0 1 [4] Node.null Node.null))
            Node.null)
          Node.null },
    scm := { sample_scm with size := 318 } }

/-- A sample tree: `sample_avl` after the inserts `cat`, `dog`, `cat`, `bird`. -/
def sample_words : Avl :=
  { state :=
      { items := 4, unique := 3,
        root := Node.mk 1 2 [99, 97, 116]
          (Node.mk 0 1 [98, 105, 114, 100] Node.null Node.null)
          (Node.mk 0 1 [100, 111, 103] Node.null Node.null) },
    scm := { sample_scm with size := 157 } }

/-- The header that `scm_open` with truncate writes. -/
def sample_header : Metadata :=
  (initialize_metadata sample_scm { size := 0, signature := 0, checksum := 0 }).2

/-- The answer of the operating system when the file left by closing
`sample_built` is opened again: as `sample_os`, with the header that
`avl_close` left. -/
def sample_os_again : Os :=
  { malloc_ok := true, open_fd := 3, is_reg := true, st_size := 4096, page := 4096,
    brk := 0x555555560000, zero_ok := true, mmap_ok := true,
    header := (avl_close sample_built sample_header).header }

/-! ## Heights and balance under insertion -/

theorem height_ge (t : Node) : -1 ≤ height t := by
  cases t with
  | null => simp [height]
  | mk d c i l r => simp only [height]; have := height_ge l; omega

@[simp] theorem balanced_mk (d : Int) (c : Nat) (i : Item) (l r : Node) :
    balanced (.mk d c i l r) = true ↔
      balanced l = true ∧ balanced r = true ∧ -1 ≤ height l - height r ∧ height l - height r ≤ 1 := by
  simp [balanced, and_assoc]

@[simp] theorem depth_ok_mk (d : Int) (c : Nat) (i : Item) (l r : Node) :
    depth_ok (.mk d c i l r) = true ↔
      depth_ok l = true ∧ depth_ok r = true ∧ d = 1 + max (height l) (height r) := by
  simp [depth_ok, and_assoc]

theorem delta_eq_height {t : Node} (h : depth_ok t = true) : delta t = height t := by
  cases t with
  | null => rfl
  | mk d c i l r => simp only [depth_ok_mk] at h; simp [delta, height, h.2.2]

theorem depth_eq_height {a b : Node} (ha : depth_ok a = true) (hb : depth_ok b = true) :
    depth a b = 1 + max (height a) (height b) := by
  unfold depth
  rw [delta_eq_height ha, delta_eq_height hb]
  split <;> omega

theorem update_fix_left_keep (x : Item) (d : Int) (c : Nat) (i : Item) (l r : Node)
    (h : ¬ 1 < |delta l - delta r|) :
    update_fix_left x (.mk d c i l r) = some (.mk d c i l r) := by
  simp [update_fix_left, balance, h]

theorem update_fix_left_single (x : Item) (d : Int) (c : Nat) (i : Item) (ld : Int) (lc : Nat)
    (li : Item) (ll lr r : Node) (h : 1 < |delta (.mk ld lc li ll lr) - delta r|)
    (hx : strcmp x li < 0) :
    update_fix_left x (.mk d c i (.mk ld lc li ll lr) r) =
      some (.mk (depth ll (.mk (depth lr r) c i lr r)) lc li ll (.mk (depth lr r) c i lr r)) := by
  simp [update_fix_left, balance, h, hx, rotate_right]

theorem update_fix_left_double (x : Item) (d : Int) (c : Nat) (i : Item) (ld : Int) (lc : Nat)
    (li : Item) (ll : Node) (md : Int) (mc : Nat) (mi : Item) (ml mr r : Node)
    (h : 1 < |delta (.mk ld lc li ll (.mk md mc mi ml mr)) - delta r|)
    (hx : ¬ strcmp x li < 0) :
    update_fix_left x (.mk d c i (.mk ld lc li ll (.mk md mc mi ml mr)) r) =
      some (.mk (depth (.mk (depth ll ml) lc li ll ml) (.mk (depth mr r) c i mr r)) mc mi
        (.mk (depth ll ml) lc li ll ml) (.mk (depth mr r) c i mr r)) := by
  simp [update_fix_left, balance, h, hx, rotate_left_right, rotate_left, rotate_right]

theorem update_fix_left_avl (x : Item) (d : Int) (c : Nat) (i : Item) (l1 r : Node) (hl : Int)
    (hdl : depth_ok l1 = true) (hbl : balanced l1 = true)
    (hdr : depth_ok r = true) (hbr : balanced r = true)
    (hxi : strcmp x i < 0)
    (hbal : -1 ≤ hl - height r ∧ hl - height r ≤ 1)
    (hgrow : height l1 = hl ∨ (height l1 = hl + 1 ∧ grown x l1)) :
    ∃ t1 t2, update_fix_left x (.mk d c i l1 r) = some t1 ∧ set_depth t1 = some t2 ∧
      depth_ok t2 = true ∧ balanced t2 = true ∧
      (height t2 = 1 + max hl (height r) ∨
        (height t2 = 1 + max hl (height r) + 1 ∧ grown x t2)) := by
  have hr := height_ge r
  have hl1 := height_ge l1
  by_cases hb : 1 < |delta l1 - delta r|
  · have hb0 := hb
    rw [delta_eq_height hdl, delta_eq_height hdr, lt_abs] at hb
    have hg : height l1 = hl + 1 ∧ grown x l1 := by
      rcases hgrow with h | h
      · omega
      · exact h
    obtain ⟨hh, hg⟩ := hg
    cases l1 with
    | null => exact absurd hg (by simp [grown])
    | mk ld lc li ll lr =>
      simp only [depth_ok_mk, balanced_mk] at hdl hbl
      obtain ⟨hdll, hdlr, hld⟩ := hdl
      obtain ⟨hbll, hblr, hb1, hb2⟩ := hbl
      have hll := height_ge ll
      have hlr := height_ge lr
      simp only [height] at hh hb hl1
      rcases hg with ⟨h1, h2⟩ | ⟨hlt, hhv⟩ | ⟨hgt, hhv⟩
      · subst h1 h2
        simp only [height] at hh hb
        omega
      · refine ⟨_, _, update_fix_left_single x d c i ld lc li ll lr r hb0 hlt, rfl, ?_, ?_, ?_⟩
        · have hdn : depth_ok (.mk (depth lr r) c i lr r) = true :=
            (depth_ok_mk _ _ _ _ _).2 ⟨hdlr, hdr, depth_eq_height hdlr hdr⟩
          exact (depth_ok_mk _ _ _ _ _).2 ⟨hdll, hdn, depth_eq_height hdll hdn⟩
        · rw [balanced_mk, balanced_mk]
          simp only [height]
          exact ⟨hbll, ⟨hblr, hbr, by omega, by omega⟩, by omega, by omega⟩
        · simp only [height]
          left; omega
      · cases lr with
        | null => simp only [height] at hhv; omega
        | mk md mc mi ml mr =>
          have hx : ¬ strcmp x li < 0 := by omega
          refine ⟨_, _, update_fix_left_double x d c i ld lc li ll md mc mi ml mr r hb0 hx, rfl,
            ?_, ?_, ?_⟩ <;>
            simp only [depth_ok_mk, balanced_mk] at hdlr hblr <;>
            obtain ⟨hdml, hdmr, hmd⟩ := hdlr <;>
            obtain ⟨hbml, hbmr, hm1, hm2⟩ := hblr <;>
            have hml := height_ge ml <;>
            have hmr := height_ge mr <;>
            simp only [height] at hhv hh hb hb1 hb2
          · have hdn1 : depth_ok (.mk (depth ll ml) lc li ll ml) = true :=
              (depth_ok_mk _ _ _ _ _).2 ⟨hdll, hdml, depth_eq_height hdll hdml⟩
            have hdn2 : depth_ok (.mk (depth mr r) c i mr r) = true :=
              (depth_ok_mk _ _ _ _ _).2 ⟨hdmr, hdr, depth_eq_height hdmr hdr⟩
            exact (depth_ok_mk _ _ _ _ _).2 ⟨hdn1, hdn2, depth_eq_height hdn1 hdn2⟩
          · rw [balanced_mk, balanced_mk, balanced_mk]
            simp only [height]
            exact ⟨⟨hbll, hbml, by omega, by omega⟩, ⟨hbmr, hbr, by omega, by omega⟩,
              by omega, by omega⟩
          · simp only [height]
            left; omega
  · refine ⟨_, _, update_fix_left_keep x d c i l1 r hb, rfl, ?_, ?_, ?_⟩ <;>
      rw [delta_eq_height hdl, delta_eq_height hdr, lt_abs] at hb
    · exact (depth_ok_mk _ _ _ _ _).2 ⟨hdl, hdr, depth_eq_height hdl hdr⟩
    · rw [balanced_mk]
      exact ⟨hbl, hbr, by omega, by omega⟩
    · simp only [height]
      rcases hgrow with h | ⟨h, _⟩
      · left; omega
      · by_cases hq : hl < height r
        · left; omega
        · right
          refine ⟨by omega, ?_⟩
          simp only [grown]
          right; left
          exact ⟨hxi, by omega⟩

theorem update_fix_right_keep (x : Item) (d : Int) (c : Nat) (i : Item) (l r : Node)
    (h : ¬ 1 < |delta l - delta r|) :
    update_fix_right x (.mk d c i l r) = some (.mk d c i l r) := by
  simp [update_fix_right, balance, h]

theorem update_fix_right_single (x : Item) (d : Int) (c : Nat) (i : Item) (rd : Int) (rc : Nat)
    (ri : Item) (l rl rr : Node) (h : 1 < |delta l - delta (.mk rd rc ri rl rr)|)
    (hx : 0 < strcmp x ri) :
    update_fix_right x (.mk d c i l (.mk rd rc ri rl rr)) =
      some (.mk (depth rr (.mk (depth l rl) c i l rl)) rc ri (.mk (depth l rl) c i l rl) rr) := by
  simp [update_fix_right, balance, h, hx, rotate_left]

theorem update_fix_right_double (x : Item) (d : Int) (c : Nat) (i : Item) (rd : Int) (rc : Nat)
    (ri : Item) (l : Node) (md : Int) (mc : Nat) (mi : Item) (ml mr rr : Node)
    (h : 1 < |delta l - delta (.mk rd rc ri (.mk md mc mi ml mr) rr)|)
    (hx : ¬ 0 < strcmp x ri) :
    update_fix_right x (.mk d c i l (.mk rd rc ri (.mk md mc mi ml mr) rr)) =
      some (.mk (depth (.mk (depth mr rr) rc ri mr rr) (.mk (depth l ml) c i l ml)) mc mi
        (.mk (depth l ml) c i l ml) (.mk (depth mr rr) rc ri mr rr)) := by
  simp [update_fix_right, balance, h, hx, rotate_right_left, rotate_left, rotate_right]

theorem update_fix_right_avl (x : Item) (d : Int) (c : Nat) (i : Item) (l r1 : Node) (hr : Int)
    (hdl : depth_ok l = true) (hbl : balanced l = true)
    (hdr : depth_ok r1 = true) (hbr : balanced r1 = true)
    (hxi : 0 < strcmp x i)
    (hbal : -1 ≤ height l - hr ∧ height l - hr ≤ 1)
    (hgrow : height r1 = hr ∨ (height r1 = hr + 1 ∧ grown x r1)) :
    ∃ t1 t2, update_fix_right x (.mk d c i l r1) = some t1 ∧ set_depth t1 = some t2 ∧
      depth_ok t2 = true ∧ balanced t2 = true ∧
      (height t2 = 1 + max (height l) hr ∨
        (height t2 = 1 + max (height l) hr + 1 ∧ grown x t2)) := by
  have hl := height_ge l
  have hr1 := height_ge r1
  by_cases hb : 1 < |delta l - delta r1|
  · have hb0 := hb
    rw [delta_eq_height hdl, delta_eq_height hdr, lt_abs] at hb
    have hg : height r1 = hr + 1 ∧ grown x r1 := by
      rcases hgrow with h | h
      · omega
      · exact h
    obtain ⟨hh, hg⟩ := hg
    cases r1 with
    | null => exact absurd hg (by simp [grown])
    | mk rd rc ri rl rr =>
      simp only [depth_ok_mk, balanced_mk] at hdr hbr
      obtain ⟨hdrl, hdrr, hrd⟩ := hdr
      obtain ⟨hbrl, hbrr, hb1, hb2⟩ := hbr
      have hrl := height_ge rl
      have hrr := height_ge rr
      simp only [height] at hh hb hr1
      rcases hg with ⟨h1, h2⟩ | ⟨hlt, hhv⟩ | ⟨hgt, hhv⟩
      · subst h1 h2
        simp only [height] at hh hb
        omega
      · cases rl with
        | null => simp only [height] at hhv; omega
        | mk md mc mi ml mr =>
          have hx : ¬ 0 < strcmp x ri := by omega
          refine ⟨_, _, update_fix_right_double x d c i rd rc ri l md mc mi ml mr rr hb0 hx, rfl,
            ?_, ?_, ?_⟩ <;>
            simp only [depth_ok_mk, balanced_mk] at hdrl hbrl <;>
            obtain ⟨hdml, hdmr, hmd⟩ := hdrl <;>
            obtain ⟨hbml, hbmr, hm1, hm2⟩ := hbrl <;>
            have hml := height_ge ml <;>
            have hmr := height_ge mr <;>
            simp only [height] at hhv hh hb hb1 hb2
          · have hdn1 : depth_ok (.mk (depth l ml) c i l ml) = true :=
              (depth_ok_mk _ _ _ _ _).2 ⟨hdl, hdml, depth_eq_height hdl hdml⟩
            have hdn2 : depth_ok (.mk (depth mr rr) rc ri mr rr) = true :=
              (depth_ok_mk _ _ _ _ _).2 ⟨hdmr, hdrr, depth_eq_height hdmr hdrr⟩
            exact (depth_ok_mk _ _ _ _ _).2
              ⟨hdn1, hdn2, depth_eq_height hdn1 hdn2⟩
          · rw [balanced_mk, balanced_mk, balanced_mk]
            simp only [height]
            exact ⟨⟨hbl, hbml, by omega, by omega⟩, ⟨hbmr, hbrr, by omega, by omega⟩,
              by omega, by omega⟩
          · simp only [height]
            left; omega
      · refine ⟨_, _, update_fix_right_single x d c i rd rc ri l rl rr hb0 hgt, rfl, ?_, ?_, ?_⟩
        · have hdn : depth_ok (.mk (depth l rl) c i l rl) = true :=
            (depth_ok_mk _ _ _ _ _).2 ⟨hdl, hdrl, depth_eq_height hdl hdrl⟩
          exact (depth_ok_mk _ _ _ _ _).2
            ⟨hdn, hdrr, depth_eq_height hdn hdrr⟩
        · rw [balanced_mk, balanced_mk]
          simp only [height]
          exact ⟨⟨hbl, hbrl, by omega, by omega⟩, hbrr, by omega, by omega⟩
        · simp only [height]
          left; omega
  · refine ⟨_, _, update_fix_right_keep x d c i l r1 hb, rfl, ?_, ?_, ?_⟩ <;>
      rw [delta_eq_height hdl, delta_eq_height hdr, lt_abs] at hb
    · exact (depth_ok_mk _ _ _ _ _).2 ⟨hdl, hdr, depth_eq_height hdl hdr⟩
    · rw [balanced_mk]
      exact ⟨hbl, hbr, by omega, by omega⟩
    · simp only [height]
      rcases hgrow with h | ⟨h, _⟩
      · left; omega
      · by_cases hq : hr < height l
        · left; omega
        · right
          refine ⟨by omega, ?_⟩
          simp only [grown]
          right; right
          exact ⟨hxi, by omega⟩

/-- A `scm_strdup` that returns NULL made no allocation. -/
theorem scm_strdup_null (scm : Scm) (s : Item) (h : scm_strdup scm s = some none) :
    scm_malloc scm ((s.length + 1) % 2 ^ 64) = none := by
  simp only [scm_strdup] at h
  cases hm : scm_malloc scm ((s.length + 1) % 2 ^ 64) with
  | none => rfl
  | some q =>
    obtain ⟨p, scm1⟩ := q
    simp only [hm] at h
    split at h <;> simp at h

/-- A `scm_strdup` that returns an address returns what its `scm_malloc` did. -/
theorem scm_strdup_some (scm : Scm) (s : Item) (p : Nat) (scm1 : Scm)
    (h : scm_strdup scm s = some (some (p, scm1))) :
    scm_malloc scm ((s.length + 1) % 2 ^ 64) = some (p, scm1) := by
  simp only [scm_strdup] at h
  cases hm : scm_malloc scm ((s.length + 1) % 2 ^ 64) with
  | none =>
    rw [hm] at h
    simp at h
  | some q =>
    obtain ⟨p2, scm2⟩ := q
    simp only [hm] at h
    split at h
    · simp only [Option.some.injEq, Prod.mk.injEq] at h
      rw [h.1, h.2]
    · simp at h

/-- The insertion at a NULL position, when it does not fault: either an
allocation fails, NULL is returned and the counters are as they were, or both
succeed and a fresh leaf with count `1` is returned, both counters advanced. -/
theorem update_null (x : Item) (avl : Avl) (t1 : Node) (avl1 : Avl)
    (h : update avl .null x = some (t1, avl1)) :
    (update_allocs avl .null x = false ∧ t1 = .null ∧ avl1.state = avl.state) ∨
      (update_allocs avl .null x = true ∧ t1 = .mk 0 1 x .null .null ∧
        avl1.state = { avl.state with
          items := (avl.state.items + 1) % 2 ^ 64,
          unique := (avl.state.unique + 1) % 2 ^ 64 }) := by
  simp only [update, update_allocs] at h ⊢
  cases hm : scm_malloc avl.scm sizeof_node with
  | none =>
    simp only [hm, Option.some.injEq, Prod.mk.injEq] at h ⊢
    left
    exact ⟨trivial, h.1.symm, by rw [← h.2]⟩
  | some q =>
    obtain ⟨p, scm1⟩ := q
    simp only [hm] at h ⊢
    by_cases hmap : scm_mapped scm1 p sizeof_node = true
    · simp only [hmap, Bool.not_true, Bool.false_eq_true, if_false, scm_strdup] at h
      cases hm2 : scm_malloc scm1 ((x.length + 1) % 2 ^ 64) with
      | none =>
        simp only [hm2, Option.some.injEq, Prod.mk.injEq] at h
        left
        exact ⟨rfl, h.1.symm, by rw [← h.2]⟩
      | some q2 =>
        obtain ⟨p2, scm2⟩ := q2
        simp only [hm2] at h
        by_cases hmap2 : scm_mapped scm2 p2 (x.length + 1) = true
        · simp only [hmap2, if_true, Option.some.injEq, Prod.mk.injEq] at h
          right
          exact ⟨rfl, h.1.symm, by rw [← h.2]⟩
        · simp [hmap2] at h
    · simp [hmap] at h

/-- An insertion that does not fault keeps stored heights and balance, and a
subtree whose height grows has the shape `grown`. -/
theorem update_avl (x : Item) (avl : Avl) (t t1 : Node) (avl1 : Avl)
    (hd : depth_ok t = true) (hb : balanced t = true)
    (h : update avl t x = some (t1, avl1)) :
    depth_ok t1 = true ∧ balanced t1 = true ∧
      (height t1 = height t ∨ (height t1 = height t + 1 ∧ grown x t1)) := by
  induction t generalizing t1 avl1 with
  | null =>
    rcases update_null x avl t1 avl1 h with ⟨-, e, -⟩ | ⟨-, e, -⟩
    · subst e; exact ⟨rfl, rfl, Or.inl rfl⟩
    · subst e
      refine ⟨by simp [depth_ok, height], by simp [balanced, height], Or.inr ?_⟩
      simp [height, grown]
  | mk d c i l r ihl ihr =>
    simp only [depth_ok_mk, balanced_mk] at hd hb
    obtain ⟨hdl, hdr, hdd⟩ := hd
    obtain ⟨hbl, hbr, hb1, hb2⟩ := hb
    simp only [update] at h
    by_cases h0 : strcmp x i = 0
    · simp only [h0, if_true, Option.some.injEq, Prod.mk.injEq] at h
      rw [← h.1]
      refine ⟨?_, ?_, Or.inl ?_⟩
      · exact (depth_ok_mk _ _ _ _ _).2 ⟨hdl, hdr, depth_eq_height hdl hdr⟩
      · exact (balanced_mk _ _ _ _ _).2 ⟨hbl, hbr, hb1, hb2⟩
      · simp [height]
    · by_cases hlt : 0 > strcmp x i
      · simp only [h0, hlt, if_true, if_false] at h
        cases hu : update avl l x with
        | none => simp [hu] at h
        | some p =>
          obtain ⟨l1, avl2⟩ := p
          obtain ⟨hdl1, hbl1, hg⟩ := ihl l1 avl2 hdl hbl hu
          obtain ⟨u1, u2, e1, e2, hd2, hbb, hh⟩ :=
            update_fix_left_avl x d c i l1 r (height l) hdl1 hbl1 hdr hbr hlt ⟨hb1, hb2⟩ hg
          simp only [hu, e1, e2, Option.some.injEq, Prod.mk.injEq] at h
          rw [← h.1]
          exact ⟨hd2, hbb, by simpa [height] using hh⟩
      · have hgt : 0 < strcmp x i := by omega
        simp only [h0, hlt, hgt, if_true, if_false] at h
        cases hu : update avl r x with
        | none => simp [hu] at h
        | some p =>
          obtain ⟨r1, avl2⟩ := p
          obtain ⟨hdr1, hbr1, hg⟩ := ihr r1 avl2 hdr hbr hu
          obtain ⟨u1, u2, e1, e2, hd2, hbb, hh⟩ :=
            update_fix_right_avl x d c i l r1 (height r) hdl hbl hdr1 hbr1 hgt ⟨hb1, hb2⟩ hg
          simp only [hu, e1, e2, Option.some.injEq, Prod.mk.injEq] at h
          rw [← h.1]
          exact ⟨hd2, hbb, by simpa [height] using hh⟩


/-! ## The order `strcmp` -/

theorem strcmp_eq_zero (a b : Item) : strcmp a b = 0 ↔ a = b := by
  induction a generalizing b with
  | nil => cases b <;> simp [strcmp]
  | cons x s ih =>
    cases b with
    | nil => simp [strcmp]
    | cons y t =>
      simp only [strcmp]
      by_cases h1 : x < y
      · simp only [h1, if_true]
        constructor
        · intro h; omega
        · intro h; injection h with h2 h3; omega
      · by_cases h2 : y < x
        · simp only [h1, h2, if_true, if_false]
          constructor
          · intro h; omega
          · intro h; injection h with h3 h4; omega
        · simp only [h1, h2, if_false]
          have : x = y := by omega
          subst this
          simp [ih t]

theorem strcmp_self (a : Item) : strcmp a a = 0 := (strcmp_eq_zero a a).2 rfl

theorem strcmp_swap (a b : Item) : strcmp a b < 0 ↔ 0 < strcmp b a := by
  induction a generalizing b with
  | nil => cases b <;> simp [strcmp]
  | cons x s ih =>
    cases b with
    | nil => simp [strcmp]
    | cons y t =>
      simp only [strcmp]
      by_cases h1 : x < y
      · have h2 : ¬ y < x := by omega
        simp [h1, h2]
      · by_cases h2 : y < x
        · simp [h1, h2]
        · simp only [h1, h2, if_false]
          exact ih t

theorem strcmp_trans (a b c : Item) (h1 : strcmp a b < 0) (h2 : strcmp b c < 0) :
    strcmp a c < 0 := by
  induction a generalizing b c with
  | nil =>
    cases c with
    | nil => cases b <;> simp [strcmp] at h1 h2
    | cons z u => simp [strcmp]
  | cons x s ih =>
    cases b with
    | nil => simp [strcmp] at h1
    | cons y t =>
      cases c with
      | nil => simp [strcmp] at h2
      | cons z u =>
        simp only [strcmp] at h1 h2 ⊢
        by_cases hxy : x < y
        · by_cases hyz : y < z
          · have : x < z := by omega
            simp [this]
          · by_cases hzy : z < y
            · simp [hyz, hzy] at h2
            · have : x < z := by omega
              simp [this]
        · by_cases hyx : y < x
          · simp [hxy, hyx] at h1
          · simp only [hxy, hyx, if_false] at h1
            have hxy2 : x = y := by omega
            subst hxy2
            by_cases hyz : x < z
            · simp [hyz]
            · by_cases hzy : z < x
              · simp [hyz, hzy] at h2
              · simp only [hyz, hzy, if_false] at h2 ⊢
                exact ih t u h1 h2

theorem strcmp_ne_of_lt {a b : Item} (h : strcmp a b < 0) : a ≠ b := by
  intro e; subst e; rw [strcmp_self] at h; omega

theorem strcmp_pos_of_lt {a b : Item} (h : strcmp a b < 0) : 0 < strcmp b a :=
  (strcmp_swap a b).1 h

theorem strcmp_lt_of_pos {a b : Item} (h : 0 < strcmp a b) : strcmp b a < 0 :=
  (strcmp_swap b a).2 h


/-! ## Sorted lists of entries -/

theorem ascending_cons (p : Item × Nat) (l : List (Item × Nat)) :
    ascending (p :: l) ↔ (∀ q ∈ l, strcmp p.1 q.1 < 0) ∧ ascending l := by
  simp [ascending, List.pairwise_cons]

theorem ascending_append (l1 l2 : List (Item × Nat)) :
    ascending (l1 ++ l2) ↔
      ascending l1 ∧ ascending l2 ∧ ∀ a ∈ l1, ∀ b ∈ l2, strcmp a.1 b.1 < 0 := by
  simp [ascending, List.pairwise_append]

theorem ascending_node (L R : List (Item × Nat)) (p : Item × Nat) :
    ascending (L ++ p :: R) ↔
      ascending L ∧ ascending R ∧ (∀ a ∈ L, strcmp a.1 p.1 < 0) ∧
        (∀ b ∈ R, strcmp p.1 b.1 < 0) ∧ ∀ a ∈ L, ∀ b ∈ R, strcmp a.1 b.1 < 0 := by
  rw [ascending_append, ascending_cons]
  constructor
  · rintro ⟨h1, ⟨h2, h3⟩, h4⟩
    exact ⟨h1, h3, fun a ha => h4 a ha p (List.mem_cons_self _ _), h2,
      fun a ha b hb => h4 a ha b (List.mem_cons_of_mem _ hb)⟩
  · rintro ⟨h1, h2, h3, h4, h5⟩
    refine ⟨h1, ⟨h4, h2⟩, ?_⟩
    intro a ha b hb
    rcases List.mem_cons.1 hb with e | hb
    · subst e; exact h3 a ha
    · exact h5 a ha b hb

theorem ins_list_append_lt (x i : Item) (c : Nat) (L R : List (Item × Nat))
    (h : strcmp x i < 0) :
    ins_list x (L ++ (i, c) :: R) = ins_list x L ++ (i, c) :: R := by
  induction L with
  | nil =>
    have h0 : strcmp x i ≠ 0 := by omega
    simp [ins_list, h0, h]
  | cons q L ih =>
    obtain ⟨j, e⟩ := q
    rw [List.cons_append]
    simp only [ins_list]
    split
    · rfl
    · split
      · rfl
      · rw [ih]; rfl

theorem ins_list_append_eq (x i : Item) (c : Nat) (L R : List (Item × Nat))
    (hL : ∀ a ∈ L, strcmp a.1 i < 0) (h : strcmp x i = 0) :
    ins_list x (L ++ (i, c) :: R) = L ++ (i, (c + 1) % 2 ^ 64) :: R := by
  have hxi : x = i := (strcmp_eq_zero x i).1 h
  subst hxi
  induction L with
  | nil => simp [ins_list, h]
  | cons q L ih =>
    obtain ⟨j, e⟩ := q
    have hj : strcmp j x < 0 := hL (j, e) (List.mem_cons_self _ _)
    have hj2 := strcmp_pos_of_lt hj
    have h0 : strcmp x j ≠ 0 := by omega
    have h1 : ¬ strcmp x j < 0 := by omega
    rw [List.cons_append]
    simp only [ins_list, h0, h1, if_false]
    rw [ih (fun a ha => hL a (List.mem_cons_of_mem _ ha))]
    rfl

theorem ins_list_append_gt (x i : Item) (c : Nat) (L R : List (Item × Nat))
    (hL : ∀ a ∈ L, strcmp a.1 i < 0) (h : 0 < strcmp x i) :
    ins_list x (L ++ (i, c) :: R) = L ++ (i, c) :: ins_list x R := by
  induction L with
  | nil =>
    have h0 : strcmp x i ≠ 0 := by omega
    have h1 : ¬ strcmp x i < 0 := by omega
    simp [ins_list, h0, h1]
  | cons q L ih =>
    obtain ⟨j, e⟩ := q
    have hj : strcmp j i < 0 := hL (j, e) (List.mem_cons_self _ _)
    have hj2 := strcmp_pos_of_lt (strcmp_trans j i x hj (strcmp_lt_of_pos h))
    have h0 : strcmp x j ≠ 0 := by omega
    have h1 : ¬ strcmp x j < 0 := by omega
    rw [List.cons_append]
    simp only [ins_list, h0, h1, if_false]
    rw [ih (fun a ha => hL a (List.mem_cons_of_mem _ ha))]
    rfl

theorem ins_list_keys (x : Item) (l : List (Item × Nat)) (p : Item × Nat)
    (hp : p ∈ ins_list x l) : p.1 = x ∨ ∃ q ∈ l, q.1 = p.1 := by
  induction l with
  | nil => simp [ins_list] at hp; left; rw [hp]
  | cons q l ih =>
    obtain ⟨j, e⟩ := q
    simp only [ins_list] at hp
    split at hp
    · rcases List.mem_cons.1 hp with h | h
      · right; exact ⟨(j, e), List.mem_cons_self _ _, by rw [h]⟩
      · right; exact ⟨p, List.mem_cons_of_mem _ h, rfl⟩
    · split at hp
      · rcases List.mem_cons.1 hp with h | h
        · left; rw [h]
        · right; exact ⟨p, h, rfl⟩
      · rcases List.mem_cons.1 hp with h | h
        · right; exact ⟨(j, e), List.mem_cons_self _ _, by rw [h]⟩
        · rcases ih h with h | ⟨q, hq, hq2⟩
          · left; exact h
          · right; exact ⟨q, List.mem_cons_of_mem _ hq, hq2⟩

theorem ins_list_ascending (x : Item) (l : List (Item × Nat)) (h : ascending l) :
    ascending (ins_list x l) := by
  induction l with
  | nil => simp [ins_list, ascending]
  | cons q l ih =>
    obtain ⟨j, e⟩ := q
    rw [ascending_cons] at h
    obtain ⟨h1, h2⟩ := h
    simp only [ins_list]
    split
    · rw [ascending_cons]; exact ⟨h1, h2⟩
    · split
      · rename_i hlt
        rw [ascending_cons, ascending_cons]
        refine ⟨?_, h1, h2⟩
        intro q hq
        rcases List.mem_cons.1 hq with e1 | hq
        · subst e1; exact hlt
        · exact strcmp_trans _ _ _ hlt (h1 q hq)
      · rename_i h0 hlt
        rw [ascending_cons]
        refine ⟨?_, ih h2⟩
        intro p hp
        rcases ins_list_keys x l p hp with e1 | ⟨q, hq, e1⟩
        · rw [e1]
          have := (strcmp_swap j x)
          simp only at this ⊢
          rw [this]; omega
        · rw [← e1]; exact h1 q hq

theorem listed_eq_zero (y : Item) (l : List (Item × Nat)) (h : ∀ p ∈ l, p.1 ≠ y) :
    listed y l = 0 := by
  induction l with
  | nil => rfl
  | cons q l ih =>
    obtain ⟨j, e⟩ := q
    have hj : j ≠ y := h (j, e) (List.mem_cons_self _ _)
    simp only [listed, hj, if_false]
    exact ih (fun p hp => h p (List.mem_cons_of_mem _ hp))

theorem listed_ins_list (x y : Item) (l : List (Item × Nat)) (h : ascending l) :
    listed y (ins_list x l) = if y = x then (listed x l + 1) % 2 ^ 64 else listed y l := by
  induction l with
  | nil =>
    by_cases hy : y = x
    · subst hy; simp [ins_list, listed]
    · have hy2 : ¬ x = y := fun e => hy e.symm
      simp [ins_list, listed, hy, hy2]
  | cons q l ih =>
    obtain ⟨j, e⟩ := q
    rw [ascending_cons] at h
    obtain ⟨h1, h2⟩ := h
    simp only [ins_list]
    split
    · rename_i h0
      have hxj : x = j := (strcmp_eq_zero x j).1 h0
      subst hxj
      by_cases hy : y = x
      · subst hy; simp [listed]
      · have hy2 : ¬ x = y := fun e => hy e.symm
        simp [listed, hy, hy2]
    · split
      · rename_i h0 hlt
        have hne : x ≠ j := fun e => h0 ((strcmp_eq_zero x j).2 e)
        by_cases hy : y = x
        · subst hy
          have hne2 : ¬ j = y := fun e => hne e.symm
          have hz : listed y l = 0 := by
            apply listed_eq_zero
            intro p hp e1
            have := strcmp_trans _ _ _ hlt (h1 p hp)
            exact strcmp_ne_of_lt this e1.symm
          simp [listed, hne2, hz]
        · have hy2 : ¬ x = y := fun e => hy e.symm
          simp [listed, hy, hy2]
      · rename_i h0 hlt
        have hne : x ≠ j := fun e => h0 ((strcmp_eq_zero x j).2 e)
        by_cases hy : y = x
        · subst hy
          have hne2 : ¬ j = y := fun e => hne e.symm
          simp only [listed, hne2, if_false, if_true]
          rw [ih h2]; simp
        · by_cases hj : j = y
          · simp [listed, hj, hy]
          · simp only [listed, hj, hy, if_false]
            rw [ih h2]; simp [hy]


theorem entry_eq_none (x : Item) (l : List (Item × Nat)) (h : ∀ p ∈ l, p.1 ≠ x) :
    entry x l = none := by
  induction l with
  | nil => rfl
  | cons q l ih =>
    obtain ⟨j, e⟩ := q
    have hj : j ≠ x := h (j, e) (List.mem_cons_self _ _)
    simp only [entry, hj, if_false]
    exact ih (fun p hp => h p (List.mem_cons_of_mem _ hp))

theorem entry_append_left (x : Item) (L M : List (Item × Nat)) (h : ∀ p ∈ M, p.1 ≠ x) :
    entry x (L ++ M) = entry x L := by
  induction L with
  | nil => simpa [entry] using entry_eq_none x M h
  | cons q L ih =>
    obtain ⟨j, e⟩ := q
    rw [List.cons_append]
    simp only [entry]
    split
    · rfl
    · exact ih

theorem entry_append_right (x : Item) (L M : List (Item × Nat)) (h : ∀ p ∈ L, p.1 ≠ x) :
    entry x (L ++ M) = entry x M := by
  induction L with
  | nil => rfl
  | cons q L ih =>
    obtain ⟨j, e⟩ := q
    have hj : j ≠ x := h (j, e) (List.mem_cons_self _ _)
    rw [List.cons_append]
    simp only [entry, hj, if_false]
    exact ih (fun p hp => h p (List.mem_cons_of_mem _ hp))

theorem listed_eq_entry (x : Item) (l : List (Item × Nat)) :
    listed x l = (entry x l).getD 0 := by
  induction l with
  | nil => rfl
  | cons q l ih =>
    obtain ⟨j, e⟩ := q
    simp only [listed, entry]
    split
    · rfl
    · exact ih

theorem entry_mem (x : Item) (c : Nat) (l : List (Item × Nat)) (h : entry x l = some c) :
    (x, c) ∈ l := by
  induction l with
  | nil => simp [entry] at h
  | cons q l ih =>
    obtain ⟨j, e⟩ := q
    simp only [entry] at h
    split at h
    · rename_i hj
      injection h with h
      subst hj h
      exact List.mem_cons_self _ _
    · exact List.mem_cons_of_mem _ (ih h)

theorem entry_of_mem (x : Item) (c : Nat) (l : List (Item × Nat)) (hl : ascending l)
    (h : (x, c) ∈ l) : entry x l = some c := by
  induction l with
  | nil => simp at h
  | cons q l ih =>
    obtain ⟨j, e⟩ := q
    rw [ascending_cons] at hl
    rcases List.mem_cons.1 h with h1 | h1
    · injection h1 with h2 h3
      subst h2 h3
      simp [entry]
    · have hj : j ≠ x := strcmp_ne_of_lt (hl.1 (x, c) h1)
      simp only [entry, hj, if_false]
      exact ih hl.2 h1

/-- Entries of a node's walk, seen from an item equal to the node's. -/
theorem entry_node_eq (i : Item) (c : Nat) (L R : List (Item × Nat))
    (h : ascending (L ++ (i, c) :: R)) : entry i (L ++ (i, c) :: R) = some c := by
  rw [ascending_node] at h
  rw [entry_append_right i L _ (fun p hp => strcmp_ne_of_lt (h.2.2.1 p hp))]
  simp [entry]

/-- Entries of a node's walk, seen from an item smaller than the node's. -/
theorem entry_node_lt (x i : Item) (c : Nat) (L R : List (Item × Nat))
    (h : ascending (L ++ (i, c) :: R)) (hx : strcmp x i < 0) :
    entry x (L ++ (i, c) :: R) = entry x L := by
  rw [ascending_node] at h
  apply entry_append_left
  intro p hp
  rcases List.mem_cons.1 hp with e | hp
  · subst e; exact fun e => strcmp_ne_of_lt hx e.symm
  · exact fun e => strcmp_ne_of_lt (strcmp_trans _ _ _ hx (h.2.2.2.1 p hp)) e.symm

/-- Entries of a node's walk, seen from an item larger than the node's. -/
theorem entry_node_gt (x i : Item) (c : Nat) (L R : List (Item × Nat))
    (h : ascending (L ++ (i, c) :: R)) (hx : 0 < strcmp x i) :
    entry x (L ++ (i, c) :: R) = entry x R := by
  rw [ascending_node] at h
  have hx2 := strcmp_lt_of_pos hx
  rw [entry_append_right x L _
    (fun p hp => strcmp_ne_of_lt (strcmp_trans _ _ _ (h.2.2.1 p hp) hx2))]
  have hne : i ≠ x := strcmp_ne_of_lt hx2
  simp [entry, hne]

/-! ## Rotations keep the in-order walk -/

@[simp] theorem traverse_null : traverse .null = [] := rfl

@[simp] theorem traverse_mk (d : Int) (c : Nat) (i : Item) (l r : Node) :
    traverse (.mk d c i l r) = traverse l ++ (i, c) :: traverse r := rfl

theorem rotate_right_traverse (t t1 : Node) (h : rotate_right t = some t1) :
    traverse t1 = traverse t := by
  cases t with
  | null => simp [rotate_right] at h
  | mk d c i l r =>
    cases l with
    | null => simp [rotate_right] at h
    | mk ld lc li ll lr =>
      simp only [rotate_right, Option.some.injEq] at h
      subst h
      simp

theorem rotate_left_traverse (t t1 : Node) (h : rotate_left t = some t1) :
    traverse t1 = traverse t := by
  cases t with
  | null => simp [rotate_left] at h
  | mk d c i l r =>
    cases r with
    | null => simp [rotate_left] at h
    | mk rd rc ri rl rr =>
      simp only [rotate_left, Option.some.injEq] at h
      subst h
      simp

theorem rotate_left_right_traverse (t t1 : Node) (h : rotate_left_right t = some t1) :
    traverse t1 = traverse t := by
  cases t with
  | null => simp [rotate_left_right] at h
  | mk d c i l r =>
    simp only [rotate_left_right] at h
    cases hl : rotate_left l with
    | none => simp [hl] at h
    | some l1 =>
      simp only [hl] at h
      rw [rotate_right_traverse _ _ h]
      simp [rotate_left_traverse _ _ hl]

theorem rotate_right_left_traverse (t t1 : Node) (h : rotate_right_left t = some t1) :
    traverse t1 = traverse t := by
  cases t with
  | null => simp [rotate_right_left] at h
  | mk d c i l r =>
    simp only [rotate_right_left] at h
    cases hr : rotate_right r with
    | none => simp [hr] at h
    | some r1 =>
      simp only [hr] at h
      rw [rotate_left_traverse _ _ h]
      simp [rotate_right_traverse _ _ hr]

theorem set_depth_traverse (t t1 : Node) (h : set_depth t = some t1) :
    traverse t1 = traverse t := by
  cases t with
  | null => simp [set_depth] at h
  | mk d c i l r =>
    simp only [set_depth, Option.some.injEq] at h
    subst h
    rfl

theorem update_fix_left_traverse (x : Item) (t t1 : Node)
    (h : update_fix_left x t = some t1) : traverse t1 = traverse t := by
  unfold update_fix_left at h
  split at h
  · simp at h
  · split at h
    · split at h
      · split at h
        · exact rotate_right_traverse _ _ h
        · exact rotate_left_right_traverse _ _ h
      · simp at h
    · simp only [Option.some.injEq] at h
      rw [h]

theorem update_fix_right_traverse (x : Item) (t t1 : Node)
    (h : update_fix_right x t = some t1) : traverse t1 = traverse t := by
  unfold update_fix_right at h
  split at h
  · simp at h
  · split at h
    · split at h
      · split at h
        · exact rotate_left_traverse _ _ h
        · exact rotate_right_left_traverse _ _ h
      · simp at h
    · simp only [Option.some.injEq] at h
      rw [h]

theorem remove_fix_traverse (t t1 : Node) (h : remove_fix t = some t1) :
    traverse t1 = traverse t := by
  unfold remove_fix at h
  split at h
  · simp at h
  · split at h
    · split at h
      · simp at h
      · split at h
        · simp at h
        · split at h
          · exact rotate_right_left_traverse _ _ h
          · exact rotate_left_traverse _ _ h
    · simp only [Option.some.injEq] at h
      rw [h]

theorem set_depth_ne_null (t t1 : Node) (h : set_depth t = some t1) : t1 ≠ .null := by
  cases t with
  | null => simp [set_depth] at h
  | mk d c i l r =>
    simp only [set_depth, Option.some.injEq] at h
    subst h
    simp


/-! ## What an insertion does to the in-order walk and the counters -/

theorem ins_state_node_eq (x i : Item) (c : Nat) (L R : List (Item × Nat)) (s : State)
    (h : ascending (L ++ (i, c) :: R)) (hx : strcmp x i = 0) :
    ins_state x (L ++ (i, c) :: R) s = { s with items := (s.items + 1) % 2 ^ 64 } := by
  have e : x = i := (strcmp_eq_zero x i).1 hx
  subst e
  simp only [ins_state, entry_node_eq x c L R h]

theorem ins_state_node_lt (x i : Item) (c : Nat) (L R : List (Item × Nat)) (s : State)
    (h : ascending (L ++ (i, c) :: R)) (hx : strcmp x i < 0) :
    ins_state x (L ++ (i, c) :: R) s = ins_state x L s := by
  simp only [ins_state, entry_node_lt x i c L R h hx]

theorem ins_state_node_gt (x i : Item) (c : Nat) (L R : List (Item × Nat)) (s : State)
    (h : ascending (L ++ (i, c) :: R)) (hx : 0 < strcmp x i) :
    ins_state x (L ++ (i, c) :: R) s = ins_state x R s := by
  simp only [ins_state, entry_node_gt x i c L R h hx]

/-- The effect of `update` that does not fault: with its allocations
succeeding the walk gains one occurrence of `x` and the counters follow;
otherwise walk and counters are unchanged. -/
theorem update_traverse (x : Item) (avl : Avl) (t t1 : Node) (avl1 : Avl)
    (hasc : ascending (traverse t)) (h : update avl t x = some (t1, avl1)) :
    (update_allocs avl t x = true →
      t1 ≠ .null ∧ traverse t1 = ins_list x (traverse t) ∧
        avl1.state = ins_state x (traverse t) avl.state) ∧
    (update_allocs avl t x = false →
      (t1 = .null ↔ t = .null) ∧ traverse t1 = traverse t ∧ avl1.state = avl.state) := by
  induction t generalizing t1 avl1 with
  | null =>
    rcases update_null x avl t1 avl1 h with ⟨ha, e, hst⟩ | ⟨ha, e, hst⟩
    · subst e
      refine ⟨fun hq => ?_, fun _ => ⟨by simp, rfl, hst⟩⟩
      rw [ha] at hq
      exact absurd hq (by simp)
    · subst e
      refine ⟨fun _ => ⟨by simp, by simp [ins_list], ?_⟩, fun hq => ?_⟩
      · rw [hst]; simp [ins_state, entry]
      · rw [ha] at hq
        exact absurd hq (by simp)
  | mk d c i l r ihl ihr =>
    have hasc0 := hasc
    rw [traverse_mk, ascending_node] at hasc
    obtain ⟨hL, hR, hLi, hRi, hLR⟩ := hasc
    simp only [update] at h
    by_cases h0 : strcmp x i = 0
    · simp only [h0, if_true, Option.some.injEq, Prod.mk.injEq] at h
      obtain ⟨h1, h2⟩ := h
      subst h1 h2
      simp only [update_allocs, h0, if_true, traverse_mk]
      refine ⟨fun _ => ⟨by simp, ?_, ?_⟩, fun hf => by simp at hf⟩
      · rw [ins_list_append_eq x i c _ _ hLi h0]
      · rw [ins_state_node_eq x i c _ _ _ hasc0 h0]
    · by_cases hlt : 0 > strcmp x i
      · simp only [h0, hlt, if_true, if_false] at h
        cases hu : update avl l x with
        | none => simp [hu] at h
        | some p =>
          obtain ⟨l1, avl2⟩ := p
          simp only [hu] at h
          cases hf : update_fix_left x (.mk d c i l1 r) with
          | none => simp [hf] at h
          | some root =>
            simp only [hf] at h
            cases hs : set_depth root with
            | none => simp [hs] at h
            | some root1 =>
              simp only [hs, Option.some.injEq, Prod.mk.injEq] at h
              obtain ⟨h1, h2⟩ := h
              subst h1 h2
              have ht : traverse root1 = traverse l1 ++ (i, c) :: traverse r := by
                rw [set_depth_traverse _ _ hs, update_fix_left_traverse _ _ _ hf, traverse_mk]
              have hnn := set_depth_ne_null _ _ hs
              obtain ⟨ih1, ih2⟩ := ihl l1 avl2 hL hu
              simp only [update_allocs, h0, hlt, if_true, if_false, traverse_mk]
              refine ⟨fun ha => ⟨hnn, ?_, ?_⟩, fun ha => ⟨by simp [hnn], ?_, ?_⟩⟩
              · rw [ht, (ih1 ha).2.1, ins_list_append_lt x i c _ _ hlt]
              · rw [(ih1 ha).2.2, ins_state_node_lt x i c _ _ _ hasc0 hlt]
              · rw [ht, (ih2 ha).2.1]
              · exact (ih2 ha).2.2
      · have hgt : 0 < strcmp x i := by omega
        simp only [h0, hlt, hgt, if_true, if_false] at h
        cases hu : update avl r x with
        | none => simp [hu] at h
        | some p =>
          obtain ⟨r1, avl2⟩ := p
          simp only [hu] at h
          cases hf : update_fix_right x (.mk d c i l r1) with
          | none => simp [hf] at h
          | some root =>
            simp only [hf] at h
            cases hs : set_depth root with
            | none => simp [hs] at h
            | some root1 =>
              simp only [hs, Option.some.injEq, Prod.mk.injEq] at h
              obtain ⟨h1, h2⟩ := h
              subst h1 h2
              have ht : traverse root1 = traverse l ++ (i, c) :: traverse r1 := by
                rw [set_depth_traverse _ _ hs, update_fix_right_traverse _ _ _ hf, traverse_mk]
              have hnn := set_depth_ne_null _ _ hs
              obtain ⟨ih1, ih2⟩ := ihr r1 avl2 hR hu
              simp only [update_allocs, h0, hlt, hgt, if_true, if_false, traverse_mk]
              refine ⟨fun ha => ⟨hnn, ?_, ?_⟩, fun ha => ⟨by simp [hnn], ?_, ?_⟩⟩
              · rw [ht, (ih1 ha).2.1, ins_list_append_gt x i c _ _ hLi hgt]
              · rw [(ih1 ha).2.2, ins_state_node_gt x i c _ _ _ hasc0 hgt]
              · rw [ht, (ih2 ha).2.1]
              · exact (ih2 ha).2.2


/-! ## Lookup against the in-order walk -/

theorem exists_loop_listed (x : Item) (t : Node) (h : ascending (traverse t)) :
    exists_loop t x = listed x (traverse t) := by
  induction t with
  | null => rfl
  | mk d c i l r ihl ihr =>
    have h0 := h
    rw [traverse_mk, ascending_node] at h
    obtain ⟨hL, hR, hLi, hRi, hLR⟩ := h
    rw [listed_eq_entry, traverse_mk]
    simp only [exists_loop]
    by_cases hz : strcmp x i = 0
    · have e : x = i := (strcmp_eq_zero x i).1 hz
      subst e
      simp [hz, entry_node_eq x c _ _ h0]
    · by_cases hlt : 0 > strcmp x i
      · simp only [hz, hlt, if_true, if_false]
        rw [entry_node_lt x i c _ _ h0 hlt, ihl hL, listed_eq_entry]
      · have hgt : 0 < strcmp x i := by omega
        simp only [hz, hlt, if_false]
        rw [entry_node_gt x i c _ _ h0 hgt, ihr hR, listed_eq_entry]

/-! ## One `avl_insert` on a balanced, sorted tree -/

/-- On a tree with correct stored heights, balanced and sorted, an
`avl_insert` that does not fault keeps all three; with its allocations
succeeding it returns `0`, the walk gains one occurrence of the item and the
counters follow, otherwise walk and counters are unchanged. -/
theorem avl_insert_step (avl : Avl) (x : Item) (ret : Int) (avl1 : Avl)
    (hd : depth_ok avl.state.root = true) (hb : balanced avl.state.root = true)
    (hs : ascending (traverse avl.state.root))
    (h : avl_insert avl x = some (ret, avl1)) :
    depth_ok avl1.state.root = true ∧ balanced avl1.state.root = true ∧
      ascending (traverse avl1.state.root) ∧
      (update_allocs avl avl.state.root x = true →
        ret = 0 ∧ traverse avl1.state.root = ins_list x (traverse avl.state.root) ∧
          avl1.state.items = (ins_state x (traverse avl.state.root) avl.state).items ∧
          avl1.state.unique = (ins_state x (traverse avl.state.root) avl.state).unique) ∧
      (update_allocs avl avl.state.root x = false →
        traverse avl1.state.root = traverse avl.state.root ∧
          avl1.state.items = avl.state.items ∧ avl1.state.unique = avl.state.unique) := by
  simp only [avl_insert] at h
  split at h
  · simp at h
  · cases hu : update avl avl.state.root x with
    | none => simp [hu] at h
    | some p =>
      obtain ⟨t1, avl2⟩ := p
      obtain ⟨hd1, hb1, -⟩ := update_avl x avl avl.state.root t1 avl2 hd hb hu
      obtain ⟨ha, hf⟩ := update_traverse x avl avl.state.root t1 avl2 hs hu
      cases t1 with
      | null =>
        simp only [hu, Option.some.injEq, Prod.mk.injEq] at h
        obtain ⟨h1, h2⟩ := h
        subst h1 h2
        have hal : update_allocs avl avl.state.root x = false := by
          cases hq : update_allocs avl avl.state.root x with
          | false => rfl
          | true => exact absurd rfl (ha hq).1
        obtain ⟨-, -, hst⟩ := hf hal
        refine ⟨?_, ?_, ?_, ?_, ?_⟩
        · rw [hst]; exact hd
        · rw [hst]; exact hb
        · rw [hst]; exact hs
        · intro hq; rw [hal] at hq; exact absurd hq (by simp)
        · intro _; rw [hst]; exact ⟨rfl, rfl, rfl⟩
      | mk d c i l r =>
        simp only [hu, Option.some.injEq, Prod.mk.injEq] at h
        obtain ⟨h1, h2⟩ := h
        subst h1 h2
        refine ⟨hd1, hb1, ?_, ?_, ?_⟩
        · show ascending (traverse (.mk d c i l r))
          cases hq : update_allocs avl avl.state.root x with
          | false => rw [(hf hq).2.1]; exact hs
          | true => rw [(ha hq).2.1]; exact ins_list_ascending x _ hs
        · intro hq
          obtain ⟨-, h2, h3⟩ := ha hq
          exact ⟨rfl, h2, by simp [h3], by simp [h3]⟩
        · intro hq
          obtain ⟨-, h2, h3⟩ := hf hq
          exact ⟨h2, by simp [h3], by simp [h3]⟩

/-! ## Sequences of `avl_insert` -/

/-- Trees built by a run of inserts that does not fault have correct stored
heights, are balanced and sorted, whether or not the allocations succeed. -/
theorem avl_insert_all_avl (xs : List Item) (avl avl1 : Avl)
    (hd : depth_ok avl.state.root = true) (hb : balanced avl.state.root = true)
    (hs : ascending (traverse avl.state.root))
    (h : avl_insert_all avl xs = some avl1) :
    depth_ok avl1.state.root = true ∧
      balanced avl1.state.root = true ∧ ascending (traverse avl1.state.root) := by
  induction xs generalizing avl with
  | nil =>
    simp only [avl_insert_all, Option.some.injEq] at h
    subst h
    exact ⟨hd, hb, hs⟩
  | cons x xs ih =>
    simp only [avl_insert_all] at h
    cases hi : avl_insert avl x with
    | none => simp [hi] at h
    | some p =>
      obtain ⟨ret, avl2⟩ := p
      simp only [hi] at h
      obtain ⟨hd1, hb1, hs1, -, -⟩ := avl_insert_step avl x ret avl2 hd hb hs hi
      exact ih avl2 hd1 hb1 hs1 h

theorem ins_list_pos (x : Item) (l : List (Item × Nat)) (h : ∀ p ∈ l, 1 ≤ p.2)
    (hx : listed x l + 1 < 2 ^ 64) : ∀ p ∈ ins_list x l, 1 ≤ p.2 := by
  induction l with
  | nil => simp [ins_list]
  | cons q l ih =>
    obtain ⟨j, e⟩ := q
    simp only [ins_list]
    split
    · rename_i h0
      have hxj : j = x := ((strcmp_eq_zero x j).1 h0).symm
      simp only [listed, hxj, if_true] at hx
      intro p hp
      rcases List.mem_cons.1 hp with e1 | hp
      · subst e1
        show 1 ≤ (e + 1) % 2 ^ 64
        rw [Nat.mod_eq_of_lt hx]; omega
      · exact h p (List.mem_cons_of_mem _ hp)
    · rename_i h0
      have hxj : ¬ j = x := fun e1 => h0 ((strcmp_eq_zero x j).2 e1.symm)
      simp only [listed, hxj, if_false] at hx
      split
      · intro p hp
        rcases List.mem_cons.1 hp with e1 | hp
        · subst e1; exact Nat.le_refl 1
        · exact h p hp
      · intro p hp
        rcases List.mem_cons.1 hp with e1 | hp
        · subst e1; exact h _ (List.mem_cons_self _ _)
        · exact ih (fun p hp => h p (List.mem_cons_of_mem _ hp)) hx p hp

/-- The invariant of a run of inserts that does not fault and whose
allocations all succeed: after the items `hist`, the walk is sorted, lists for
every string its number of occurrences in `hist`, and lists no zero count. -/
theorem avl_insert_all_listed (xs : List Item) (avl avl1 : Avl) (hist : List Item)
    (hlen : hist.length + xs.length < 2 ^ 64)
    (hal : avl_insert_all_allocs avl xs = true)
    (hd : depth_ok avl.state.root = true) (hb : balanced avl.state.root = true)
    (hs : ascending (traverse avl.state.root))
    (hc : ∀ y, listed y (traverse avl.state.root) = hist.count y)
    (hp : ∀ p ∈ traverse avl.state.root, 1 ≤ p.2)
    (h : avl_insert_all avl xs = some avl1) :
    depth_ok avl1.state.root = true ∧
      balanced avl1.state.root = true ∧ ascending (traverse avl1.state.root) ∧
      (∀ y, listed y (traverse avl1.state.root) = (hist ++ xs).count y) ∧
      (∀ p ∈ traverse avl1.state.root, 1 ≤ p.2) := by
  induction xs generalizing avl hist with
  | nil =>
    simp only [avl_insert_all, Option.some.injEq] at h
    subst h
    exact ⟨hd, hb, hs, by simpa using hc, hp⟩
  | cons x xs ih =>
    simp only [avl_insert_all] at h
    cases hi : avl_insert avl x with
    | none => simp [hi] at h
    | some q =>
      obtain ⟨ret, avl2⟩ := q
      simp only [hi] at h
      obtain ⟨hd1, hb1, hs1, ha1, -⟩ := avl_insert_step avl x ret avl2 hd hb hs hi
      simp only [avl_insert_all_allocs, hi, Bool.and_eq_true] at hal
      obtain ⟨hal1, hal2⟩ := hal
      obtain ⟨-, htr, -, -⟩ := ha1 hal1
      simp only [List.length_cons] at hlen
      have hcx : listed x (traverse avl.state.root) + 1 < 2 ^ 64 := by
        rw [hc x]
        have := List.count_le_length x hist
        omega
      have hc1 : ∀ y, listed y (traverse avl2.state.root) = (hist ++ [x]).count y := by
        intro y
        rw [htr, listed_ins_list x y _ hs, List.count_append, hc y]
        by_cases hy : y = x
        · subst hy
          rw [Nat.mod_eq_of_lt hcx, hc y]
          simp
        · have hy2 : ¬ x = y := fun e => hy e.symm
          simp [hy, List.count_cons, hy2]
      have hp1 : ∀ p ∈ traverse avl2.state.root, 1 ≤ p.2 := by
        rw [htr]; exact ins_list_pos x _ hp hcx
      have h2 := ih avl2 (hist ++ [x])
        (by simp only [List.length_append, List.length_singleton]; omega) hal2 hd1 hb1 hs1
        hc1 hp1 h
      simpa [List.append_assoc] using h2


theorem listed_mem_iff (l : List (Item × Nat)) (xs : List Item) (hs : ascending l)
    (hc : ∀ y, listed y l = xs.count y) (hp : ∀ p ∈ l, 1 ≤ p.2) (y : Item) (c : Nat) :
    (y, c) ∈ l ↔ (y ∈ xs ∧ c = xs.count y) := by
  constructor
  · intro h
    have he := entry_of_mem y c l hs h
    have h1 : listed y l = c := by rw [listed_eq_entry, he]; rfl
    have h2 := hp (y, c) h
    rw [hc y] at h1
    refine ⟨?_, h1.symm⟩
    apply List.count_pos_iff.1
    simp only at h2
    omega
  · rintro ⟨h1, h2⟩
    have h3 : 0 < xs.count y := List.count_pos_iff.2 h1
    have h4 := hc y
    rw [listed_eq_entry] at h4
    cases he : entry y l with
    | none => rw [he] at h4; simp at h4; omega
    | some c1 =>
      rw [he] at h4
      simp only [Option.getD_some] at h4
      rw [h2, ← h4]
      exact entry_mem y c1 l he


/-! ## Removal on sorted lists of entries -/

theorem del_list_not_mem (x : Item) (l : List (Item × Nat)) (h : ∀ p ∈ l, p.1 ≠ x) :
    del_list x l = l := by
  induction l with
  | nil => rfl
  | cons q l ih =>
    obtain ⟨j, e⟩ := q
    have hj : j ≠ x := h (j, e) (List.mem_cons_self _ _)
    simp only [del_list, hj, if_false]
    rw [ih (fun p hp => h p (List.mem_cons_of_mem _ hp))]

theorem del_list_append_left (x : Item) (L M : List (Item × Nat)) (h : ∀ p ∈ M, p.1 ≠ x) :
    del_list x (L ++ M) = del_list x L ++ M := by
  induction L with
  | nil => simpa [del_list] using del_list_not_mem x M h
  | cons q L ih =>
    obtain ⟨j, e⟩ := q
    rw [List.cons_append]
    simp only [del_list]
    split
    · split <;> rfl
    · rw [ih]; rfl

theorem del_list_append_right (x : Item) (L M : List (Item × Nat)) (h : ∀ p ∈ L, p.1 ≠ x) :
    del_list x (L ++ M) = L ++ del_list x M := by
  induction L with
  | nil => rfl
  | cons q L ih =>
    obtain ⟨j, e⟩ := q
    have hj : j ≠ x := h (j, e) (List.mem_cons_self _ _)
    rw [List.cons_append]
    simp only [del_list, hj, if_false]
    rw [ih (fun p hp => h p (List.mem_cons_of_mem _ hp))]
    rfl

theorem del_list_node_eq (i : Item) (c : Nat) (L R : List (Item × Nat))
    (h : ascending (L ++ (i, c) :: R)) :
    del_list i (L ++ (i, c) :: R) = if 1 < c then L ++ (i, c - 1) :: R else L ++ R := by
  rw [ascending_node] at h
  rw [del_list_append_right i L _ (fun p hp => strcmp_ne_of_lt (h.2.2.1 p hp))]
  simp only [del_list, if_true]
  split <;> rfl

theorem del_list_node_lt (x i : Item) (c : Nat) (L R : List (Item × Nat))
    (h : ascending (L ++ (i, c) :: R)) (hx : strcmp x i < 0) :
    del_list x (L ++ (i, c) :: R) = del_list x L ++ (i, c) :: R := by
  rw [ascending_node] at h
  apply del_list_append_left
  intro p hp
  rcases List.mem_cons.1 hp with e | hp
  · subst e; exact fun e => strcmp_ne_of_lt hx e.symm
  · exact fun e => strcmp_ne_of_lt (strcmp_trans _ _ _ hx (h.2.2.2.1 p hp)) e.symm

theorem del_list_node_gt (x i : Item) (c : Nat) (L R : List (Item × Nat))
    (h : ascending (L ++ (i, c) :: R)) (hx : 0 < strcmp x i) :
    del_list x (L ++ (i, c) :: R) = L ++ (i, c) :: del_list x R := by
  rw [ascending_node] at h
  have hx2 := strcmp_lt_of_pos hx
  rw [del_list_append_right x L _
    (fun p hp => strcmp_ne_of_lt (strcmp_trans _ _ _ (h.2.2.1 p hp) hx2))]
  have hne : i ≠ x := strcmp_ne_of_lt hx2
  simp [del_list, hne]

theorem del_state_node_lt (x i : Item) (c : Nat) (L R : List (Item × Nat)) (s : State)
    (h : ascending (L ++ (i, c) :: R)) (hx : strcmp x i < 0) :
    del_state x (L ++ (i, c) :: R) s = del_state x L s := by
  simp only [del_state, entry_node_lt x i c L R h hx]

theorem del_state_node_gt (x i : Item) (c : Nat) (L R : List (Item × Nat)) (s : State)
    (h : ascending (L ++ (i, c) :: R)) (hx : 0 < strcmp x i) :
    del_state x (L ++ (i, c) :: R) s = del_state x R s := by
  simp only [del_state, entry_node_gt x i c L R h hx]

/-! ## What a removal does to the in-order walk and the counters -/

theorem find_next_min_node_null (t : Node) (h : find_next_min_node t = .null) : t = .null := by
  induction t with
  | null => rfl
  | mk d c i l r ihl ihr =>
    cases l with
    | null => simp [find_next_min_node] at h
    | mk ld lc li ll lr =>
      simp only [find_next_min_node] at h
      exact absurd (ihl h) (by simp)

/-- The node `remove_min` takes out is the one `find_next_min_node` returns: the
first entry of the walk. -/
theorem remove_min_traverse (t t1 : Node) (h : remove_min t = some t1) :
    ∃ md mc mi ml mr, find_next_min_node t = .mk md mc mi ml mr ∧
      traverse t = (mi, mc) :: traverse t1 := by
  induction t generalizing t1 with
  | null => simp [remove_min] at h
  | mk d c i l r ihl ihr =>
    cases l with
    | null =>
      simp only [remove_min, Option.some.injEq] at h
      subst h
      exact ⟨d, c, i, .null, r, rfl, rfl⟩
    | mk ld lc li ll lr =>
      simp only [remove_min] at h
      cases hm : remove_min (.mk ld lc li ll lr) with
      | none => simp [hm] at h
      | some l1 =>
        simp only [hm] at h
        cases hf : remove_fix (.mk d c i l1 r) with
        | none => simp [hf] at h
        | some node =>
          simp only [hf] at h
          obtain ⟨md, mc, mi, ml, mr, e1, e2⟩ := ihl l1 hm
          refine ⟨md, mc, mi, ml, mr, ?_, ?_⟩
          · simpa [find_next_min_node] using e1
          · rw [set_depth_traverse _ _ h, remove_fix_traverse _ _ hf, traverse_mk d c i l1 r,
              traverse_mk d c i (.mk ld lc li ll lr) r, e2]
            rfl

/-- The effect of a `remove_node` that does not fault and whose string
duplication succeeds: the walk loses one occurrence of `x` and the counters
follow. -/
theorem remove_node_traverse (x : Item) (avl : Avl) (t t1 : Node) (avl1 : Avl)
    (hasc : ascending (traverse t)) (h : remove_node avl t x = some (t1, avl1))
    (hal : remove_allocs avl t x = true) :
    traverse t1 = del_list x (traverse t) ∧ avl1.state = del_state x (traverse t) avl.state := by
  induction t generalizing t1 avl1 with
  | null =>
    simp only [remove_node, Option.some.injEq, Prod.mk.injEq] at h
    obtain ⟨h1, h2⟩ := h
    subst h1 h2
    exact ⟨rfl, rfl⟩
  | mk d c i l r ihl ihr =>
    have hasc0 := hasc
    rw [traverse_mk, ascending_node] at hasc
    obtain ⟨hL, hR, hLi, hRi, hLR⟩ := hasc
    simp only [remove_node] at h
    simp only [remove_allocs] at hal
    by_cases h0 : strcmp x i = 0
    · have e : x = i := (strcmp_eq_zero x i).1 h0
      subst e
      have hent := entry_node_eq x c _ _ hasc0
      simp only [h0, if_true] at h hal
      rw [traverse_mk, del_list_node_eq x c _ _ hasc0]
      simp only [del_state, hent]
      by_cases hc : c > 1
      · have hc1 : 1 < c := hc
        simp only [hc, if_true, Option.some.injEq, Prod.mk.injEq] at h
        obtain ⟨h1, h2⟩ := h
        subst h1 h2
        simp [hc1]
      · have hc1 : ¬ 1 < c := hc
        simp only [hc, hc1, if_false] at h hal ⊢
        by_cases hch : l = .null ∨ r = .null
        · simp only [hch, if_true, Option.some.injEq, Prod.mk.injEq] at h
          obtain ⟨h1, h2⟩ := h
          subst h1 h2
          refine ⟨?_, rfl⟩
          by_cases hl : l = .null
          · subst hl; simp
          · have hr : r = .null := by
              rcases hch with h | h
              · exact absurd h hl
              · exact h
            subst hr
            simp [hl]
        · simp only [hch, if_false] at h hal
          cases hm : find_next_min_node r with
          | null =>
            exact absurd (find_next_min_node_null r hm) (fun e => hch (Or.inr e))
          | mk md mc mi ml mr =>
            simp only [hm] at h hal
            cases hs : scm_strdup avl.scm mi with
            | none => simp [hs] at h
            | some p =>
              cases p with
              | none => exact absurd (scm_strdup_null avl.scm mi hs) (by
                  intro e; rw [e] at hal; simp at hal)
              | some p =>
              obtain ⟨q, scm1⟩ := p
              simp only [hs] at h
              cases hrm : remove_min r with
              | none => simp [hrm] at h
              | some r1 =>
                simp only [hrm] at h
                cases hf : remove_fix (.mk d mc mi l r1) with
                | none => simp [hf] at h
                | some node =>
                  simp only [hf] at h
                  cases hsd : set_depth node with
                  | none => simp [hsd] at h
                  | some node1 =>
                    simp only [hsd, Option.some.injEq, Prod.mk.injEq] at h
                    obtain ⟨h1, h2⟩ := h
                    subst h1 h2
                    obtain ⟨md2, mc2, mi2, ml2, mr2, e1, e2⟩ := remove_min_traverse r r1 hrm
                    rw [hm] at e1
                    injection e1 with _ e3 e4
                    subst e3 e4
                    refine ⟨?_, rfl⟩
                    rw [set_depth_traverse _ _ hsd, remove_fix_traverse _ _ hf, traverse_mk, e2]
    · by_cases hlt : strcmp x i < 0
      · simp only [h0, hlt, if_true, if_false] at h hal
        cases hu : remove_node avl l x with
        | none => simp [hu] at h
        | some p =>
          obtain ⟨l1, avl2⟩ := p
          simp only [hu] at h
          cases hf : remove_fix (.mk d c i l1 r) with
          | none => simp [hf] at h
          | some node =>
            simp only [hf] at h
            cases hsd : set_depth node with
            | none => simp [hsd] at h
            | some node1 =>
              simp only [hsd, Option.some.injEq, Prod.mk.injEq] at h
              obtain ⟨h1, h2⟩ := h
              subst h1 h2
              obtain ⟨ih1, ih2⟩ := ihl l1 avl2 hL hu hal
              rw [traverse_mk, del_list_node_lt x i c _ _ hasc0 hlt,
                del_state_node_lt x i c _ _ _ hasc0 hlt, set_depth_traverse _ _ hsd,
                remove_fix_traverse _ _ hf, traverse_mk, ih1]
              exact ⟨rfl, ih2⟩
      · have hgt : 0 < strcmp x i := by omega
        simp only [h0, hlt, if_false] at h hal
        cases hu : remove_node avl r x with
        | none => simp [hu] at h
        | some p =>
          obtain ⟨r1, avl2⟩ := p
          simp only [hu] at h
          cases hf : remove_fix (.mk d c i l r1) with
          | none => simp [hf] at h
          | some node =>
            simp only [hf] at h
            cases hsd : set_depth node with
            | none => simp [hsd] at h
            | some node1 =>
              simp only [hsd, Option.some.injEq, Prod.mk.injEq] at h
              obtain ⟨h1, h2⟩ := h
              subst h1 h2
              obtain ⟨ih1, ih2⟩ := ihr r1 avl2 hR hu hal
              rw [traverse_mk, del_list_node_gt x i c _ _ hasc0 hgt,
                del_state_node_gt x i c _ _ _ hasc0 hgt, set_depth_traverse _ _ hsd,
                remove_fix_traverse _ _ hf, traverse_mk, ih1]
              exact ⟨rfl, ih2⟩


/-! ## Counters against the in-order walk -/

theorem node_count_traverse (t : Node) : node_count t = (traverse t).length := by
  induction t with
  | null => rfl
  | mk d c i l r ihl ihr =>
    simp only [node_count, traverse_mk, List.length_append, List.length_cons, ihl, ihr]
    omega

theorem count_sum_traverse (t : Node) : count_sum t = ((traverse t).map Prod.snd).sum := by
  induction t with
  | null => rfl
  | mk d c i l r ihl ihr =>
    simp only [count_sum, traverse_mk, List.map_append, List.map_cons, List.sum_append,
      List.sum_cons, ihl, ihr]
    omega

theorem listed_le_sum (x : Item) (l : List (Item × Nat)) :
    listed x l ≤ (l.map Prod.snd).sum := by
  induction l with
  | nil => simp [listed]
  | cons q l ih =>
    obtain ⟨j, e⟩ := q
    simp only [listed, List.map_cons, List.sum_cons]
    split <;> omega

theorem length_le_sum (l : List (Item × Nat)) (h : ∀ p ∈ l, 1 ≤ p.2) :
    l.length ≤ (l.map Prod.snd).sum := by
  induction l with
  | nil => simp
  | cons q l ih =>
    have h1 := h q (List.mem_cons_self _ _)
    have h2 := ih (fun p hp => h p (List.mem_cons_of_mem _ hp))
    simp only [List.length_cons, List.map_cons, List.sum_cons]
    omega

theorem ins_list_sum (x : Item) (l : List (Item × Nat)) (hx : listed x l + 1 < 2 ^ 64) :
    ((ins_list x l).map Prod.snd).sum = (l.map Prod.snd).sum + 1 := by
  induction l with
  | nil => simp [ins_list]
  | cons q l ih =>
    obtain ⟨j, e⟩ := q
    simp only [ins_list]
    split
    · rename_i h0
      have hxj : j = x := ((strcmp_eq_zero x j).1 h0).symm
      simp only [listed, hxj, if_true] at hx
      simp only [List.map_cons, List.sum_cons, Nat.mod_eq_of_lt hx]
      omega
    · rename_i h0
      have hxj : ¬ j = x := fun e1 => h0 ((strcmp_eq_zero x j).2 e1.symm)
      simp only [listed, hxj, if_false] at hx
      split
      · simp only [List.map_cons, List.sum_cons]; omega
      · simp only [List.map_cons, List.sum_cons, ih hx]; omega

theorem ins_list_length (x : Item) (l : List (Item × Nat)) (h : ascending l) :
    (ins_list x l).length = (match entry x l with
      | some _ => l.length
      | none => l.length + 1) := by
  induction l with
  | nil => simp [ins_list, entry]
  | cons q l ih =>
    obtain ⟨j, e⟩ := q
    rw [ascending_cons] at h
    simp only [ins_list]
    split
    · rename_i h0
      have hxj : j = x := ((strcmp_eq_zero x j).1 h0).symm
      simp [entry, hxj]
    · rename_i h0
      have hxj : ¬ j = x := fun e1 => h0 ((strcmp_eq_zero x j).2 e1.symm)
      split
      · rename_i hlt
        have hn : entry x ((j, e) :: l) = none := by
          apply entry_eq_none
          intro p hp
          rcases List.mem_cons.1 hp with e1 | hp
          · subst e1; exact hxj
          · exact fun e1 =>
              strcmp_ne_of_lt (strcmp_trans _ _ _ hlt (h.1 p hp)) e1.symm
        rw [hn]; simp
      · simp only [entry, hxj, if_false, List.length_cons, ih h.2]
        cases entry x l <;> rfl

theorem del_list_mem (x : Item) (l : List (Item × Nat)) (hpos : ∀ p ∈ l, 1 ≤ p.2)
    (p : Item × Nat) (hp : p ∈ del_list x l) : 1 ≤ p.2 ∧ ∃ q ∈ l, q.1 = p.1 := by
  induction l with
  | nil => simp [del_list] at hp
  | cons q l ih =>
    obtain ⟨j, e⟩ := q
    simp only [del_list] at hp
    split at hp
    · split at hp
      · rename_i h1
        rcases List.mem_cons.1 hp with e1 | hp
        · subst e1
          exact ⟨by show 1 ≤ e - 1; omega, (j, e), List.mem_cons_self _ _, rfl⟩
        · exact ⟨hpos p (List.mem_cons_of_mem _ hp), p, List.mem_cons_of_mem _ hp, rfl⟩
      · exact ⟨hpos p (List.mem_cons_of_mem _ hp), p, List.mem_cons_of_mem _ hp, rfl⟩
    · rcases List.mem_cons.1 hp with e1 | hp
      · subst e1
        exact ⟨hpos _ (List.mem_cons_self _ _), (j, e), List.mem_cons_self _ _, rfl⟩
      · obtain ⟨h1, q, hq, hq2⟩ := ih (fun p hp => hpos p (List.mem_cons_of_mem _ hp)) hp
        exact ⟨h1, q, List.mem_cons_of_mem _ hq, hq2⟩

theorem del_list_ascending (x : Item) (l : List (Item × Nat)) (h : ascending l) :
    ascending (del_list x l) := by
  induction l with
  | nil => simp [del_list, ascending]
  | cons q l ih =>
    obtain ⟨j, e⟩ := q
    rw [ascending_cons] at h
    obtain ⟨h1, h2⟩ := h
    simp only [del_list]
    split
    · split
      · rw [ascending_cons]; exact ⟨h1, h2⟩
      · exact h2
    · rw [ascending_cons]
      refine ⟨?_, ih h2⟩
      intro p hp
      have hsub : ∀ (m : List (Item × Nat)) (p : Item × Nat), p ∈ del_list x m →
          ∃ q ∈ m, q.1 = p.1 := by
        intro m
        induction m with
        | nil => intro p hp; simp [del_list] at hp
        | cons q m ihm =>
          obtain ⟨k, f⟩ := q
          intro p hp
          simp only [del_list] at hp
          split at hp
          · split at hp
            · rcases List.mem_cons.1 hp with e1 | hp
              · subst e1; exact ⟨(k, f), List.mem_cons_self _ _, rfl⟩
              · exact ⟨p, List.mem_cons_of_mem _ hp, rfl⟩
            · exact ⟨p, List.mem_cons_of_mem _ hp, rfl⟩
          · rcases List.mem_cons.1 hp with e1 | hp
            · subst e1; exact ⟨(k, f), List.mem_cons_self _ _, rfl⟩
            · obtain ⟨q, hq, hq2⟩ := ihm p hp
              exact ⟨q, List.mem_cons_of_mem _ hq, hq2⟩
      obtain ⟨q, hq, hq2⟩ := hsub l p hp
      rw [← hq2]; exact h1 q hq

/-- Length and sum of counts after `del_list`, by the entry listed for `x`. -/
theorem del_list_length_sum (x : Item) (l : List (Item × Nat)) :
    match entry x l with
    | none => del_list x l = l
    | some c =>
      if 1 < c then
        (del_list x l).length = l.length ∧
          ((del_list x l).map Prod.snd).sum + 1 = (l.map Prod.snd).sum
      else
        (del_list x l).length + 1 = l.length ∧
          ((del_list x l).map Prod.snd).sum + c = (l.map Prod.snd).sum := by
  induction l with
  | nil => simp [entry, del_list]
  | cons q l ih =>
    obtain ⟨j, e⟩ := q
    by_cases hj : j = x
    · simp only [entry, del_list, hj, if_true]
      by_cases he : 1 < e
      · simp only [he, if_true, List.length_cons, List.map_cons, List.sum_cons, true_and]
        omega
      · simp only [he, if_false, List.length_cons, List.map_cons, List.sum_cons, true_and]
        omega
    · simp only [entry, del_list, hj, if_false]
      cases hent : entry x l with
      | none =>
        rw [hent] at ih
        simp only at ih ⊢
        rw [ih]
      | some c =>
        rw [hent] at ih
        simp only at ih ⊢
        by_cases hc : 1 < c
        · simp only [hc, if_true, List.length_cons, List.map_cons, List.sum_cons] at ih ⊢
          omega
        · simp only [hc, if_false, List.length_cons, List.map_cons, List.sum_cons] at ih ⊢
          omega

theorem walk_inv_root (l : List (Item × Nat)) (s : State) (n : Nat) (t : Node) :
    walk_inv l { s with root := t } n ↔ walk_inv l s n := Iff.rfl

theorem walk_inv_mono (l : List (Item × Nat)) (s : State) (n m : Nat) (hnm : n ≤ m)
    (h : walk_inv l s n) : walk_inv l s m :=
  ⟨h.1, h.2.1, h.2.2.1, h.2.2.2.1, Nat.le_trans h.2.2.2.2 hnm⟩

theorem walk_inv_ins (x : Item) (l : List (Item × Nat)) (s : State) (n : Nat)
    (h : walk_inv l s n) (hn : n + 1 < 2 ^ 64) :
    walk_inv (ins_list x l) (ins_state x l s) (n + 1) := by
  obtain ⟨h1, h2, h3, h4, h5⟩ := h
  have hls := listed_le_sum x l
  have hlen := length_le_sum l h2
  have hx : listed x l + 1 < 2 ^ 64 := by omega
  have hi : (s.items + 1) % 2 ^ 64 = s.items + 1 := Nat.mod_eq_of_lt (by omega)
  have hu : (s.unique + 1) % 2 ^ 64 = s.unique + 1 := Nat.mod_eq_of_lt (by omega)
  have hsum := ins_list_sum x l hx
  have hl := ins_list_length x l h1
  refine ⟨ins_list_ascending x l h1, ins_list_pos x l h2 hx, ?_, ?_, ?_⟩
  · simp only [ins_state]
    cases hent : entry x l with
    | none => rw [hent] at hl; simp only at hl ⊢; rw [hu, hl, h3]
    | some c => rw [hent] at hl; simp only at hl ⊢; rw [hl, h3]
  · simp only [ins_state]
    cases hent : entry x l with
    | none => simp only; rw [hi, hsum, h4]
    | some c => simp only; rw [hi, hsum, h4]
  · simp only [ins_state]
    cases hent : entry x l with
    | none => simp only; rw [hi]; omega
    | some c => simp only; rw [hi]; omega

theorem walk_inv_del (x : Item) (l : List (Item × Nat)) (s : State) (n : Nat)
    (h : walk_inv l s n) (hn : n < 2 ^ 64) :
    walk_inv (del_list x l) (del_state x l s) n := by
  obtain ⟨h1, h2, h3, h4, h5⟩ := h
  have hlen := length_le_sum l h2
  have hls := del_list_length_sum x l
  refine ⟨del_list_ascending x l h1, fun p hp => (del_list_mem x l h2 p hp).1, ?_⟩
  simp only [del_state]
  cases hent : entry x l with
  | none =>
    rw [hent] at hls
    simp only at hls ⊢
    rw [hls]
    exact ⟨h3, h4, h5⟩
  | some c =>
    rw [hent] at hls
    have hc1 : 1 ≤ c := h2 (x, c) (entry_mem x c l hent)
    simp only at hls ⊢
    by_cases hc : 1 < c
    · simp only [hc, if_true] at hls ⊢
      have hi : (s.items + (2 ^ 64 - 1)) % 2 ^ 64 = s.items - 1 := by omega
      refine ⟨?_, ?_, ?_⟩
      · rw [hls.1]; exact h3
      · show (s.items + (2 ^ 64 - 1)) % 2 ^ 64 = _
        rw [hi]; omega
      · show (s.items + (2 ^ 64 - 1)) % 2 ^ 64 ≤ n
        rw [hi]; omega
    · simp only [hc, if_false] at hls ⊢
      have hi : (s.items + (2 ^ 64 - 1)) % 2 ^ 64 = s.items - 1 := by omega
      have hu : (s.unique + (2 ^ 64 - 1)) % 2 ^ 64 = s.unique - 1 := by omega
      refine ⟨?_, ?_, ?_⟩
      · show (s.unique + (2 ^ 64 - 1)) % 2 ^ 64 = _
        rw [hu]; omega
      · show (s.items + (2 ^ 64 - 1)) % 2 ^ 64 = _
        rw [hi]; omega
      · show (s.items + (2 ^ 64 - 1)) % 2 ^ 64 ≤ n
        rw [hi]; omega


/-! ## One call of the interface, on any sorted tree -/

/-- An `avl_insert` that does not fault and whose allocations succeed returns
`0`; the walk gains one occurrence of the item and the counters follow. -/
theorem avl_insert_traverse (avl : Avl) (x : Item) (ret : Int) (avl1 : Avl)
    (hs : ascending (traverse avl.state.root)) (h : avl_insert avl x = some (ret, avl1))
    (hal : update_allocs avl avl.state.root x = true) :
    ret = 0 ∧ avl1.state.items = (ins_state x (traverse avl.state.root) avl.state).items ∧
      avl1.state.unique = (ins_state x (traverse avl.state.root) avl.state).unique ∧
      traverse avl1.state.root = ins_list x (traverse avl.state.root) := by
  simp only [avl_insert] at h
  split at h
  · simp at h
  · cases hu : update avl avl.state.root x with
    | none => simp [hu] at h
    | some p =>
      obtain ⟨t1, avl2⟩ := p
      obtain ⟨hnn, htr, hst⟩ := (update_traverse x avl _ t1 avl2 hs hu).1 hal
      cases t1 with
      | null => exact absurd rfl hnn
      | mk d c i l r =>
        simp only [hu, Option.some.injEq, Prod.mk.injEq] at h
        obtain ⟨h1, h2⟩ := h
        subst h1 h2
        exact ⟨rfl, by simp [hst], by simp [hst], htr⟩

/-- An `avl_remove` that does not fault and whose string duplication succeeds
takes one occurrence of the item from the walk, and the counters follow. -/
theorem avl_remove_traverse (avl : Avl) (x : Item) (ret : Int) (avl1 : Avl)
    (hs : ascending (traverse avl.state.root)) (h : avl_remove avl x = some (ret, avl1))
    (hal : remove_allocs avl avl.state.root x = true) :
    avl1.state.items = (del_state x (traverse avl.state.root) avl.state).items ∧
      avl1.state.unique = (del_state x (traverse avl.state.root) avl.state).unique ∧
      traverse avl1.state.root = del_list x (traverse avl.state.root) := by
  simp only [avl_remove] at h
  split at h
  · simp at h
  · split at h
    · rename_i hr
      simp only [Option.some.injEq, Prod.mk.injEq] at h
      obtain ⟨h1, h2⟩ := h
      subst h1 h2
      rw [hr]
      exact ⟨rfl, rfl, rfl⟩
    · cases hu : remove_node avl avl.state.root x with
      | none => simp [hu] at h
      | some p =>
        obtain ⟨t1, avl2⟩ := p
        obtain ⟨htr, hst⟩ := remove_node_traverse x avl _ t1 avl2 hs hu hal
        simp only [hu, Option.some.injEq, Prod.mk.injEq] at h
        obtain ⟨h1, h2⟩ := h
        subst h1 h2
        exact ⟨by simp [hst], by simp [hst], htr⟩

theorem walk_inv_congr (l : List (Item × Nat)) (s s1 : State) (n : Nat)
    (hi : s1.items = s.items) (hu : s1.unique = s.unique) (h : walk_inv l s n) :
    walk_inv l s1 n := by
  obtain ⟨h1, h2, h3, h4, h5⟩ := h
  exact ⟨h1, h2, by rw [hu]; exact h3, by rw [hi]; exact h4, by rw [hi]; exact h5⟩

/-- One completed call with its allocations succeeding keeps the counters in
agreement with the walk. -/
theorem avl_call_walk_inv (avl : Avl) (k : Call) (ret : Int) (avl1 : Avl) (n : Nat)
    (hn : n + 1 < 2 ^ 64) (h : avl_call avl k = some (ret, avl1))
    (hal : avl_call_allocs avl k = true)
    (hw : walk_inv (traverse avl.state.root) avl.state n) :
    walk_inv (traverse avl1.state.root) avl1.state (n + 1) := by
  cases k with
  | insert x =>
    obtain ⟨-, hi, hu, htr⟩ := avl_insert_traverse avl x ret avl1 hw.1 h hal
    rw [htr]
    exact walk_inv_congr _ _ _ _ hi hu (walk_inv_ins x _ _ n hw hn)
  | remove x =>
    obtain ⟨hi, hu, htr⟩ := avl_remove_traverse avl x ret avl1 hw.1 h hal
    rw [htr]
    exact walk_inv_congr _ _ _ _ hi hu
      (walk_inv_mono _ _ n (n + 1) (Nat.le_succ n) (walk_inv_del x _ _ n hw (by omega)))

theorem avl_calls_walk_inv (ks : List Call) (avl avl1 : Avl) (n : Nat)
    (hn : n + ks.length < 2 ^ 64) (h : avl_calls avl ks = some avl1)
    (hal : avl_calls_allocs avl ks = true)
    (hw : walk_inv (traverse avl.state.root) avl.state n) :
    walk_inv (traverse avl1.state.root) avl1.state (n + ks.length) := by
  induction ks generalizing avl n with
  | nil =>
    simp only [avl_calls, Option.some.injEq] at h
    subst h
    exact hw
  | cons k ks ih =>
    simp only [List.length_cons] at hn ⊢
    simp only [avl_calls] at h
    simp only [avl_calls_allocs, Bool.and_eq_true] at hal
    cases hc : avl_call avl k with
    | none => simp [hc] at h
    | some p =>
      obtain ⟨ret, avl2⟩ := p
      simp only [hc] at h hal
      have h2 := avl_call_walk_inv avl k ret avl2 n (by omega) hc hal.1 hw
      have h3 := ih avl2 (n + 1) (by omega) h hal.2 h2
      have e : n + 1 + ks.length = n + (ks.length + 1) := by omega
      rw [e] at h3
      exact h3


/-! ## Lookup after a removal -/

theorem listed_del_list_ne (x y : Item) (l : List (Item × Nat)) (h : y ≠ x) :
    listed y (del_list x l) = listed y l := by
  induction l with
  | nil => rfl
  | cons q l ih =>
    obtain ⟨j, e⟩ := q
    simp only [del_list]
    split
    · rename_i hj
      have hjy : ¬ j = y := fun e1 => h (e1.symm.trans hj)
      split
      · simp [listed, hjy]
      · simp [listed, hjy]
    · simp only [listed, ih]

theorem listed_del_list_self (x : Item) (c : Nat) (l : List (Item × Nat)) (hs : ascending l)
    (h : entry x l = some c) : listed x (del_list x l) = c - 1 := by
  induction l with
  | nil => simp [entry] at h
  | cons q l ih =>
    obtain ⟨j, e⟩ := q
    rw [ascending_cons] at hs
    simp only [entry] at h
    simp only [del_list]
    split
    · rename_i hj
      simp only [hj, if_true, Option.some.injEq] at h
      subst h hj
      split
      · simp [listed]
      · rename_i he
        rw [listed_eq_zero j l (fun p hp => fun e1 => strcmp_ne_of_lt (hs.1 p hp) e1.symm)]
        omega
    · rename_i hj
      simp only [hj, if_false] at h
      simp only [listed, hj, if_false]
      exact ih hs.2 h

theorem del_list_eq_map (x : Item) (c : Nat) (l : List (Item × Nat)) (hs : ascending l)
    (h : entry x l = some c) (hc : 1 < c) :
    del_list x l = l.map (fun p => if p.1 = x then (x, c - 1) else p) := by
  induction l with
  | nil => rfl
  | cons q l ih =>
    obtain ⟨j, e⟩ := q
    rw [ascending_cons] at hs
    simp only [entry] at h
    simp only [del_list, List.map_cons]
    split
    · rename_i hj
      simp only [hj, if_true, Option.some.injEq] at h
      subst h hj
      simp only [hc, if_true]
      congr 1
      symm
      rw [List.map_congr_left (g := id)]
      · simp
      · intro p hp
        have : ¬ p.1 = j := fun e1 => strcmp_ne_of_lt (hs.1 p hp) e1.symm
        simp [this]
    · rename_i hj
      simp only [hj, if_false] at h
      rw [ih hs.2 h]

theorem del_list_eq_filter (x : Item) (c : Nat) (l : List (Item × Nat)) (hs : ascending l)
    (h : entry x l = some c) (hc : ¬ 1 < c) :
    del_list x l = l.filter (fun p => decide (p.1 ≠ x)) := by
  induction l with
  | nil => rfl
  | cons q l ih =>
    obtain ⟨j, e⟩ := q
    rw [ascending_cons] at hs
    simp only [entry] at h
    simp only [del_list]
    split
    · rename_i hj
      simp only [hj, if_true, Option.some.injEq] at h
      subst h hj
      simp only [hc, if_false]
      rw [List.filter_cons_of_neg (by simp)]
      symm
      apply List.filter_eq_self.2
      intro p hp
      have : ¬ p.1 = j := fun e1 => strcmp_ne_of_lt (hs.1 p hp) e1.symm
      simp [this]
    · rename_i hj
      simp only [hj, if_false] at h
      rw [List.filter_cons_of_pos (by simp [hj]), ih hs.2 h]

theorem avl_insert_all_nonempty (xs : List Item) (avl avl1 : Avl)
    (h : avl_insert_all avl xs = some avl1) : ∀ x ∈ xs, x ≠ [] := by
  induction xs generalizing avl with
  | nil => simp
  | cons y ys ih =>
    simp only [avl_insert_all] at h
    cases hi : avl_insert avl y with
    | none => simp [hi] at h
    | some p =>
      obtain ⟨ret, avl2⟩ := p
      simp only [hi] at h
      intro x hx
      rcases List.mem_cons.1 hx with e | hx
      · subst e
        intro e
        subst e
        simp [avl_insert, safe_strlen] at hi
      · exact ih avl2 h x hx

/-- A tree built from the empty one by inserts has correct stored heights, is
balanced and its walk is sorted. -/
theorem avl_insert_all_built (xs : List Item) (avl avl1 : Avl)
    (h0 : avl.state.root = .null) (h : avl_insert_all avl xs = some avl1) :
    depth_ok avl1.state.root = true ∧ balanced avl1.state.root = true ∧
      ascending (traverse avl1.state.root) := by
  exact avl_insert_all_avl xs avl avl1 (by rw [h0]; rfl) (by rw [h0]; rfl)
    (by rw [h0]; simp [ascending]) h


/-! ## Removal of an item that is not in the tree -/

theorem remove_fix_keep (d : Int) (c : Nat) (i : Item) (l r : Node)
    (h : ¬ 1 < |delta l - delta r|) : remove_fix (.mk d c i l r) = some (.mk d c i l r) := by
  simp [remove_fix, balance, h]

/-- On a balanced tree with correct stored heights, `remove_node` of an item
that no node carries returns the tree as it was and leaves the handle alone. -/
theorem remove_node_absent (x : Item) (avl : Avl) (t : Node)
    (hd : depth_ok t = true) (hb : balanced t = true) (habs : ∀ p ∈ traverse t, p.1 ≠ x) :
    remove_node avl t x = some (t, avl) := by
  induction t with
  | null => rfl
  | mk d c i l r ihl ihr =>
    simp only [depth_ok_mk, balanced_mk] at hd hb
    obtain ⟨hdl, hdr, hdd⟩ := hd
    obtain ⟨hbl, hbr, hb1, hb2⟩ := hb
    have hne : i ≠ x := habs (i, c) (by simp)
    have h0 : ¬ strcmp x i = 0 := fun e => hne ((strcmp_eq_zero x i).1 e).symm
    have hk : ¬ 1 < |delta l - delta r| := by
      rw [delta_eq_height hdl, delta_eq_height hdr, lt_abs]
      omega
    have hdep : depth l r = d := by rw [depth_eq_height hdl hdr, hdd]
    simp only [remove_node, h0, if_false]
    by_cases hlt : strcmp x i < 0
    · simp only [hlt, if_true]
      rw [ihl hdl hbl (fun p hp => habs p (by simp [hp]))]
      simp only [remove_fix_keep d c i l r hk, set_depth, hdep]
    · simp only [hlt, if_false]
      rw [ihr hdr hbr (fun p hp => habs p (by simp [hp]))]
      simp only [remove_fix_keep d c i l r hk, set_depth, hdep]


/-! ## The allocator -/

/-- Without wrap-around `scm_malloc` succeeds exactly when the request fits,
returns the cursor and advances it by the request. -/
theorem scm_malloc_no_wrap (scm : Scm) (n : Nat) (h : scm.size + n < 2 ^ 64) :
    scm_malloc scm n =
      if scm.size + n ≤ scm.length then
        some (scm.mem + scm.size, { scm with size := scm.size + n })
      else none := by
  simp only [scm_malloc, Nat.mod_eq_of_lt h]

/-- A successful `scm_malloc` leaves the utilized size within the capacity,
whatever it was before. -/
theorem scm_malloc_within (scm : Scm) (n p : Nat) (scm1 : Scm)
    (h : scm_malloc scm n = some (p, scm1)) :
    scm1.size ≤ scm1.length ∧ scm1.length = scm.length ∧ scm1.mem = scm.mem ∧
      p = scm.mem + scm.size := by
  simp only [scm_malloc] at h
  split at h
  · rename_i hle
    simp only [Option.some.injEq, Prod.mk.injEq] at h
    obtain ⟨h1, h2⟩ := h
    subst h1 h2
    exact ⟨hle, rfl, rfl, rfl⟩
  · simp at h

/-- A successful request whose sum does not wrap returns the cursor and
advances it by the size of the request. -/
theorem scm_request_no_wrap (scm : Scm) (r : Request) (p : Nat) (scm1 : Scm)
    (h : scm.size + request_size r < 2 ^ 64)
    (hr : scm_request scm r = some (some (p, scm1))) :
    p = scm.mem + scm.size ∧ scm1 = { scm with size := scm.size + request_size r } := by
  have key : ∀ n, scm.size + n < 2 ^ 64 → scm_malloc scm n = some (p, scm1) →
      p = scm.mem + scm.size ∧ scm1 = { scm with size := scm.size + n } := by
    intro n hn hm
    rw [scm_malloc_no_wrap scm n hn] at hm
    split at hm
    · simp only [Option.some.injEq, Prod.mk.injEq] at hm
      exact ⟨hm.1.symm, hm.2.symm⟩
    · simp at hm
  cases r with
  | malloc n =>
    simp only [scm_request, Option.some.injEq] at hr
    exact key n h hr
  | strdup s =>
    simp only [request_size] at h ⊢
    have h1 : (s.length + 1) % 2 ^ 64 = s.length + 1 := Nat.mod_eq_of_lt (by omega)
    have hm := scm_strdup_some scm s p scm1 hr
    rw [h1] at hm
    exact key (s.length + 1) h hm

theorem scm_after_failed (scm : Scm) (rs : List Request)
    (h : ∀ r ∈ rs, scm_request scm r = some none) : rs.foldl scm_after scm = scm := by
  induction rs with
  | nil => rfl
  | cons r rs ih =>
    have h1 : scm_after scm r = scm := by
      have hr := h r (List.mem_cons_self _ _)
      cases r with
      | malloc n =>
        simp only [scm_request, Option.some.injEq] at hr
        simp [scm_after, hr]
      | strdup s =>
        simp only [scm_after, scm_strdup_null scm s hr]
    simp only [List.foldl_cons, h1]
    exact ih (fun q hq => h q (List.mem_cons_of_mem _ hq))


/-! ## Stored heights under every operation -/

/-- The children of a node carry correct stored heights; the node's own stored
height may be stale. -/
theorem rotate_right_depth_ok (d : Int) (c : Nat) (i : Item) (l r t1 : Node)
    (hl : depth_ok l = true) (hr : depth_ok r = true)
    (h : rotate_right (.mk d c i l r) = some t1) : depth_ok t1 = true := by
  cases l with
  | null => simp [rotate_right] at h
  | mk ld lc li ll lr =>
    simp only [rotate_right, Option.some.injEq] at h
    subst h
    simp only [depth_ok_mk] at hl
    obtain ⟨hll, hlr, -⟩ := hl
    have hn : depth_ok (.mk (depth lr r) c i lr r) = true :=
      (depth_ok_mk _ _ _ _ _).2 ⟨hlr, hr, depth_eq_height hlr hr⟩
    exact (depth_ok_mk _ _ _ _ _).2 ⟨hll, hn, depth_eq_height hll hn⟩

theorem rotate_left_depth_ok (d : Int) (c : Nat) (i : Item) (l r t1 : Node)
    (hl : depth_ok l = true) (hr : depth_ok r = true)
    (h : rotate_left (.mk d c i l r) = some t1) : depth_ok t1 = true := by
  cases r with
  | null => simp [rotate_left] at h
  | mk rd rc ri rl rr =>
    simp only [rotate_left, Option.some.injEq] at h
    subst h
    simp only [depth_ok_mk] at hr
    obtain ⟨hrl, hrr, -⟩ := hr
    have hn : depth_ok (.mk (depth l rl) c i l rl) = true :=
      (depth_ok_mk _ _ _ _ _).2 ⟨hl, hrl, depth_eq_height hl hrl⟩
    exact (depth_ok_mk _ _ _ _ _).2
      ⟨hn, hrr, by rw [depth_eq_height hrr hn, max_comm]⟩

theorem rotate_left_right_depth_ok (d : Int) (c : Nat) (i : Item) (l r t1 : Node)
    (hl : depth_ok l = true) (hr : depth_ok r = true)
    (h : rotate_left_right (.mk d c i l r) = some t1) : depth_ok t1 = true := by
  simp only [rotate_left_right] at h
  cases hrl : rotate_left l with
  | none => simp [hrl] at h
  | some l1 =>
    simp only [hrl] at h
    cases l with
    | null => simp [rotate_left] at hrl
    | mk ld lc li ll lr =>
      simp only [depth_ok_mk] at hl
      exact rotate_right_depth_ok d c i l1 r t1
        (rotate_left_depth_ok ld lc li ll lr l1 hl.1 hl.2.1 hrl) hr h

theorem rotate_right_left_depth_ok (d : Int) (c : Nat) (i : Item) (l r t1 : Node)
    (hl : depth_ok l = true) (hr : depth_ok r = true)
    (h : rotate_right_left (.mk d c i l r) = some t1) : depth_ok t1 = true := by
  simp only [rotate_right_left] at h
  cases hrr : rotate_right r with
  | none => simp [hrr] at h
  | some r1 =>
    simp only [hrr] at h
    cases r with
    | null => simp [rotate_right] at hrr
    | mk rd rc ri rl rr =>
      simp only [depth_ok_mk] at hr
      exact rotate_left_depth_ok d c i l r1 t1 hl
        (rotate_right_depth_ok rd rc ri rl rr r1 hr.1 hr.2.1 hrr) h

theorem set_depth_depth_ok (d : Int) (c : Nat) (i : Item) (l r t1 : Node)
    (hl : depth_ok l = true) (hr : depth_ok r = true)
    (h : set_depth (.mk d c i l r) = some t1) : depth_ok t1 = true := by
  simp only [set_depth, Option.some.injEq] at h
  subst h
  exact (depth_ok_mk _ _ _ _ _).2 ⟨hl, hr, depth_eq_height hl hr⟩

theorem set_depth_of_depth_ok (t t1 : Node) (ht : depth_ok t = true)
    (h : set_depth t = some t1) : depth_ok t1 = true := by
  cases t with
  | null => simp [set_depth] at h
  | mk d c i l r =>
    simp only [depth_ok_mk] at ht
    exact set_depth_depth_ok d c i l r t1 ht.1 ht.2.1 h

/-- The rebalancing blocks followed by the height update leave correct stored
heights, whatever the balance. -/
theorem update_fix_left_depth_ok (x : Item) (d : Int) (c : Nat) (i : Item) (l r t1 t2 : Node)
    (hl : depth_ok l = true) (hr : depth_ok r = true)
    (h : update_fix_left x (.mk d c i l r) = some t1) (hs : set_depth t1 = some t2) :
    depth_ok t2 = true := by
  unfold update_fix_left at h
  simp only [balance] at h
  split at h
  · cases l with
    | null => simp at h
    | mk ld lc li ll lr =>
      simp only at h
      split at h
      · exact set_depth_of_depth_ok t1 t2 (rotate_right_depth_ok d c i _ r t1 hl hr h) hs
      · exact set_depth_of_depth_ok t1 t2 (rotate_left_right_depth_ok d c i _ r t1 hl hr h) hs
  · simp only [Option.some.injEq] at h
    subst h
    exact set_depth_depth_ok d c i l r t2 hl hr hs

theorem update_fix_right_depth_ok (x : Item) (d : Int) (c : Nat) (i : Item) (l r t1 t2 : Node)
    (hl : depth_ok l = true) (hr : depth_ok r = true)
    (h : update_fix_right x (.mk d c i l r) = some t1) (hs : set_depth t1 = some t2) :
    depth_ok t2 = true := by
  unfold update_fix_right at h
  simp only [balance] at h
  split at h
  · cases r with
    | null => simp at h
    | mk rd rc ri rl rr =>
      simp only at h
      split at h
      · exact set_depth_of_depth_ok t1 t2 (rotate_left_depth_ok d c i l _ t1 hl hr h) hs
      · exact set_depth_of_depth_ok t1 t2 (rotate_right_left_depth_ok d c i l _ t1 hl hr h) hs
  · simp only [Option.some.injEq] at h
    subst h
    exact set_depth_depth_ok d c i l r t2 hl hr hs

theorem remove_fix_depth_ok (d : Int) (c : Nat) (i : Item) (l r t1 t2 : Node)
    (hl : depth_ok l = true) (hr : depth_ok r = true)
    (h : remove_fix (.mk d c i l r) = some t1) (hs : set_depth t1 = some t2) :
    depth_ok t2 = true := by
  unfold remove_fix at h
  simp only [balance] at h
  split at h
  · split at h
    · simp at h
    · split at h
      · exact set_depth_of_depth_ok t1 t2 (rotate_right_left_depth_ok d c i l r t1 hl hr h) hs
      · exact set_depth_of_depth_ok t1 t2 (rotate_left_depth_ok d c i l r t1 hl hr h) hs
  · simp only [Option.some.injEq] at h
    subst h
    exact set_depth_depth_ok d c i l r t2 hl hr hs


/-- An insertion that does not fault leaves correct stored heights, on any
tree that had them. -/
theorem update_depth_ok (x : Item) (avl : Avl) (t t1 : Node) (avl1 : Avl)
    (hd : depth_ok t = true) (h : update avl t x = some (t1, avl1)) :
    depth_ok t1 = true := by
  induction t generalizing t1 avl1 with
  | null =>
    rcases update_null x avl t1 avl1 h with ⟨-, e, -⟩ | ⟨-, e, -⟩
    · subst e; rfl
    · subst e; simp [depth_ok, height]
  | mk d c i l r ihl ihr =>
    simp only [depth_ok_mk] at hd
    obtain ⟨hdl, hdr, -⟩ := hd
    simp only [update] at h
    split at h
    · simp only [Option.some.injEq, Prod.mk.injEq] at h
      rw [← h.1]
      exact (depth_ok_mk _ _ _ _ _).2 ⟨hdl, hdr, depth_eq_height hdl hdr⟩
    · split at h
      · cases hu : update avl l x with
        | none => simp [hu] at h
        | some p =>
          obtain ⟨l1, avl2⟩ := p
          simp only [hu] at h
          cases hf : update_fix_left x (.mk d c i l1 r) with
          | none => simp [hf] at h
          | some root =>
            simp only [hf] at h
            cases hs : set_depth root with
            | none => simp [hs] at h
            | some root1 =>
              simp only [hs, Option.some.injEq, Prod.mk.injEq] at h
              rw [← h.1]
              exact update_fix_left_depth_ok x d c i l1 r root root1 (ihl l1 avl2 hdl hu) hdr
                hf hs
      · split at h
        · cases hu : update avl r x with
          | none => simp [hu] at h
          | some p =>
            obtain ⟨r1, avl2⟩ := p
            simp only [hu] at h
            cases hf : update_fix_right x (.mk d c i l r1) with
            | none => simp [hf] at h
            | some root =>
              simp only [hf] at h
              cases hs : set_depth root with
              | none => simp [hs] at h
              | some root1 =>
                simp only [hs, Option.some.injEq, Prod.mk.injEq] at h
                rw [← h.1]
                exact update_fix_right_depth_ok x d c i l r1 root root1 hdl
                  (ihr r1 avl2 hdr hu) hf hs
        · simp only [Option.some.injEq, Prod.mk.injEq] at h
          rw [← h.1]
          exact (depth_ok_mk _ _ _ _ _).2 ⟨hdl, hdr, depth_eq_height hdl hdr⟩

theorem remove_min_depth_ok (t t1 : Node) (hd : depth_ok t = true)
    (h : remove_min t = some t1) : depth_ok t1 = true := by
  induction t generalizing t1 with
  | null => simp [remove_min] at h
  | mk d c i l r ihl ihr =>
    simp only [depth_ok_mk] at hd
    obtain ⟨hdl, hdr, -⟩ := hd
    cases l with
    | null =>
      simp only [remove_min, Option.some.injEq] at h
      rw [← h]; exact hdr
    | mk ld lc li ll lr =>
      simp only [remove_min] at h
      cases hm : remove_min (.mk ld lc li ll lr) with
      | none => simp [hm] at h
      | some l1 =>
        simp only [hm] at h
        cases hf : remove_fix (.mk d c i l1 r) with
        | none => simp [hf] at h
        | some node =>
          simp only [hf] at h
          exact remove_fix_depth_ok d c i l1 r node t1 (ihl l1 hdl hm) hdr hf h

/-- A removal that does not fault leaves correct stored heights, on any tree
that had them, whether or not the string duplication succeeds. -/
theorem remove_node_depth_ok (x : Item) (avl : Avl) (t t1 : Node) (avl1 : Avl)
    (hd : depth_ok t = true) (h : remove_node avl t x = some (t1, avl1)) :
    depth_ok t1 = true := by
  induction t generalizing t1 avl1 with
  | null =>
    simp only [remove_node, Option.some.injEq, Prod.mk.injEq] at h
    rw [← h.1]; rfl
  | mk d c i l r ihl ihr =>
    have hd0 := hd
    simp only [depth_ok_mk] at hd
    obtain ⟨hdl, hdr, hdd⟩ := hd
    simp only [remove_node] at h
    split at h
    · split at h
      · simp only [Option.some.injEq, Prod.mk.injEq] at h
        rw [← h.1]
        exact (depth_ok_mk _ _ _ _ _).2 ⟨hdl, hdr, hdd⟩
      · split at h
        · simp only [Option.some.injEq, Prod.mk.injEq] at h
          rw [← h.1]
          split
          · exact hdl
          · exact hdr
        · cases hmin : find_next_min_node r with
          | null =>
            simp only [hmin, Option.some.injEq, Prod.mk.injEq] at h
            rw [← h.1]; rfl
          | mk md mc mi ml mr =>
            simp only [hmin] at h
            cases hsd : scm_strdup avl.scm mi with
            | none => simp [hsd] at h
            | some q =>
              cases q with
              | none =>
                simp only [hsd, Option.some.injEq, Prod.mk.injEq] at h
                rw [← h.1]; rfl
              | some q =>
              obtain ⟨q1, scm1⟩ := q
              simp only [hsd] at h
              cases hrm : remove_min r with
              | none => simp [hrm] at h
              | some r1 =>
                simp only [hrm] at h
                cases hf : remove_fix (.mk d mc mi l r1) with
                | none => simp [hf] at h
                | some node =>
                  simp only [hf] at h
                  cases hs : set_depth node with
                  | none => simp [hs] at h
                  | some node1 =>
                    simp only [hs, Option.some.injEq, Prod.mk.injEq] at h
                    rw [← h.1]
                    exact remove_fix_depth_ok d mc mi l r1 node node1 hdl
                      (remove_min_depth_ok r r1 hdr hrm) hf hs
    · split at h
      · cases hu : remove_node avl l x with
        | none => simp [hu] at h
        | some p =>
          obtain ⟨l1, avl2⟩ := p
          simp only [hu] at h
          cases hf : remove_fix (.mk d c i l1 r) with
          | none => simp [hf] at h
          | some node =>
            simp only [hf] at h
            cases hs : set_depth node with
            | none => simp [hs] at h
            | some node1 =>
              simp only [hs, Option.some.injEq, Prod.mk.injEq] at h
              rw [← h.1]
              exact remove_fix_depth_ok d c i l1 r node node1 (ihl l1 avl2 hdl hu) hdr hf hs
      · cases hu : remove_node avl r x with
        | none => simp [hu] at h
        | some p =>
          obtain ⟨r1, avl2⟩ := p
          simp only [hu] at h
          cases hf : remove_fix (.mk d c i l r1) with
          | none => simp [hf] at h
          | some node =>
            simp only [hf] at h
            cases hs : set_depth node with
            | none => simp [hs] at h
            | some node1 =>
              simp only [hs, Option.some.injEq, Prod.mk.injEq] at h
              rw [← h.1]
              exact remove_fix_depth_ok d c i l r1 node node1 hdl (ihr r1 avl2 hdr hu) hf hs

/-- The recursive insertion does not write the root pointer of the state block. -/
theorem update_state_root (x : Item) (avl : Avl) (t t1 : Node) (avl1 : Avl)
    (h : update avl t x = some (t1, avl1)) : avl1.state.root = avl.state.root := by
  induction t generalizing t1 avl1 with
  | null =>
    rcases update_null x avl t1 avl1 h with ⟨-, -, e⟩ | ⟨-, -, e⟩
    · rw [e]
    · rw [e]
  | mk d c i l r ihl ihr =>
    simp only [update] at h
    split at h
    · simp only [Option.some.injEq, Prod.mk.injEq] at h
      rw [← h.2]
    · split at h
      · cases hu : update avl l x with
        | none => simp [hu] at h
        | some p =>
          obtain ⟨l1, avl2⟩ := p
          simp only [hu] at h
          cases hf : update_fix_left x (.mk d c i l1 r) with
          | none => simp [hf] at h
          | some root =>
            simp only [hf] at h
            cases hs : set_depth root with
            | none => simp [hs] at h
            | some root1 =>
              simp only [hs, Option.some.injEq, Prod.mk.injEq] at h
              rw [← h.2]
              exact ihl l1 avl2 hu
      · split at h
        · cases hu : update avl r x with
          | none => simp [hu] at h
          | some p =>
            obtain ⟨r1, avl2⟩ := p
            simp only [hu] at h
            cases hf : update_fix_right x (.mk d c i l r1) with
            | none => simp [hf] at h
            | some root =>
              simp only [hf] at h
              cases hs : set_depth root with
              | none => simp [hs] at h
              | some root1 =>
                simp only [hs, Option.some.injEq, Prod.mk.injEq] at h
                rw [← h.2]
                exact ihr r1 avl2 hu
        · simp only [Option.some.injEq, Prod.mk.injEq] at h
          rw [← h.2]

/-- One completed call leaves correct stored heights. -/
theorem avl_call_depth_ok (avl : Avl) (k : Call) (ret : Int) (avl1 : Avl)
    (hd : depth_ok avl.state.root = true) (h : avl_call avl k = some (ret, avl1)) :
    depth_ok avl1.state.root = true := by
  cases k with
  | insert x =>
    simp only [avl_call, avl_insert] at h
    split at h
    · simp at h
    · cases hu : update avl avl.state.root x with
      | none => simp [hu] at h
      | some p =>
        obtain ⟨t1, avl2⟩ := p
        have h1 := update_depth_ok x avl _ t1 avl2 hd hu
        have h2 := update_state_root x avl _ t1 avl2 hu
        cases t1 with
        | null =>
          simp only [hu, Option.some.injEq, Prod.mk.injEq] at h
          rw [← h.2, h2]; exact hd
        | mk d c i l r =>
          simp only [hu, Option.some.injEq, Prod.mk.injEq] at h
          rw [← h.2]; exact h1
  | remove x =>
    simp only [avl_call, avl_remove] at h
    split at h
    · simp at h
    · split at h
      · simp only [Option.some.injEq, Prod.mk.injEq] at h
        rw [← h.2]; exact hd
      · cases hu : remove_node avl avl.state.root x with
        | none => simp [hu] at h
        | some p =>
          obtain ⟨t1, avl2⟩ := p
          simp only [hu, Option.some.injEq, Prod.mk.injEq] at h
          rw [← h.2]
          exact remove_node_depth_ok x avl _ t1 avl2 hd hu

theorem avl_calls_depth_ok (ks : List Call) (avl avl1 : Avl)
    (hd : depth_ok avl.state.root = true) (h : avl_calls avl ks = some avl1) :
    depth_ok avl1.state.root = true := by
  induction ks generalizing avl with
  | nil =>
    simp only [avl_calls, Option.some.injEq] at h
    rw [← h]; exact hd
  | cons k ks ih =>
    simp only [avl_calls] at h
    cases hc : avl_call avl k with
    | none => simp [hc] at h
    | some p =>
      obtain ⟨ret, avl2⟩ := p
      simp only [hc] at h
      exact ih avl2 (avl_call_depth_ok avl k ret avl2 hd hc) h


/-! ## Removal of the minimum on a balanced tree -/

theorem remove_fix_single (d : Int) (c : Nat) (i : Item) (rd : Int) (rc : Nat) (ri : Item)
    (l rl rr : Node) (h : 1 < |delta l - delta (.mk rd rc ri rl rr)|)
    (hx : ¬ 0 < delta rl - delta rr) :
    remove_fix (.mk d c i l (.mk rd rc ri rl rr)) =
      some (.mk (depth rr (.mk (depth l rl) c i l rl)) rc ri (.mk (depth l rl) c i l rl) rr) := by
  simp [remove_fix, balance, h, hx, rotate_left]

theorem remove_fix_double (d : Int) (c : Nat) (i : Item) (rd : Int) (rc : Nat) (ri : Item)
    (l : Node) (md : Int) (mc : Nat) (mi : Item) (ml mr rr : Node)
    (h : 1 < |delta l - delta (.mk rd rc ri (.mk md mc mi ml mr) rr)|)
    (hx : 0 < delta (.mk md mc mi ml mr) - delta rr) :
    remove_fix (.mk d c i l (.mk rd rc ri (.mk md mc mi ml mr) rr)) =
      some (.mk (depth (.mk (depth mr rr) rc ri mr rr) (.mk (depth l ml) c i l ml)) mc mi
        (.mk (depth l ml) c i l ml) (.mk (depth mr rr) rc ri mr rr)) := by
  simp [remove_fix, balance, h, hx, rotate_right_left, rotate_left, rotate_right]

/-- The rebalancing block of the removal, after the left subtree has kept its
height or lost one level: the node is balanced again, with correct stored
heights, and has kept its height or lost one level. -/
theorem remove_fix_after_left (d : Int) (c : Nat) (i : Item) (l1 r : Node) (hl : Int)
    (hdl : depth_ok l1 = true) (hbl : balanced l1 = true)
    (hdr : depth_ok r = true) (hbr : balanced r = true)
    (hbal : -1 ≤ hl - height r ∧ hl - height r ≤ 1)
    (hshr : height l1 = hl ∨ height l1 = hl - 1) :
    ∃ t1 t2, remove_fix (.mk d c i l1 r) = some t1 ∧ set_depth t1 = some t2 ∧
      depth_ok t2 = true ∧ balanced t2 = true ∧
      (height t2 = 1 + max hl (height r) ∨ height t2 = 1 + max hl (height r) - 1) := by
  have hr := height_ge r
  have hl1 := height_ge l1
  by_cases hb : 1 < |delta l1 - delta r|
  · have hb0 := hb
    rw [delta_eq_height hdl, delta_eq_height hdr, lt_abs] at hb
    cases r with
    | null => simp only [height] at hb hbal hr; omega
    | mk rd rc ri rl rr =>
      simp only [depth_ok_mk, balanced_mk] at hdr hbr
      obtain ⟨hdrl, hdrr, hrd⟩ := hdr
      obtain ⟨hbrl, hbrr, hb1, hb2⟩ := hbr
      have hrl := height_ge rl
      have hrr := height_ge rr
      simp only [height] at hb hbal hr
      by_cases hx : 0 < delta rl - delta rr
      · have hx0 := hx
        rw [delta_eq_height hdrl, delta_eq_height hdrr] at hx
        cases rl with
        | null => simp only [height] at hx; omega
        | mk md mc mi ml mr =>
          refine ⟨_, _, remove_fix_double d c i rd rc ri l1 md mc mi ml mr rr hb0 hx0, rfl,
            ?_, ?_, ?_⟩ <;>
            simp only [depth_ok_mk, balanced_mk] at hdrl hbrl <;>
            obtain ⟨hdml, hdmr, hmd⟩ := hdrl <;>
            obtain ⟨hbml, hbmr, hm1, hm2⟩ := hbrl <;>
            have hml := height_ge ml <;>
            have hmr := height_ge mr <;>
            simp only [height] at hx hb hb1 hb2 hbal
          · have hdn1 : depth_ok (.mk (depth l1 ml) c i l1 ml) = true :=
              (depth_ok_mk _ _ _ _ _).2 ⟨hdl, hdml, depth_eq_height hdl hdml⟩
            have hdn2 : depth_ok (.mk (depth mr rr) rc ri mr rr) = true :=
              (depth_ok_mk _ _ _ _ _).2 ⟨hdmr, hdrr, depth_eq_height hdmr hdrr⟩
            exact (depth_ok_mk _ _ _ _ _).2 ⟨hdn1, hdn2, depth_eq_height hdn1 hdn2⟩
          · rw [balanced_mk, balanced_mk, balanced_mk]
            simp only [height]
            exact ⟨⟨hbl, hbml, by omega, by omega⟩, ⟨hbmr, hbrr, by omega, by omega⟩,
              by omega, by omega⟩
          · simp only [height]
            omega
      · have hx0 := hx
        rw [delta_eq_height hdrl, delta_eq_height hdrr] at hx
        refine ⟨_, _, remove_fix_single d c i rd rc ri l1 rl rr hb0 hx0, rfl, ?_, ?_, ?_⟩
        · have hdn : depth_ok (.mk (depth l1 rl) c i l1 rl) = true :=
            (depth_ok_mk _ _ _ _ _).2 ⟨hdl, hdrl, depth_eq_height hdl hdrl⟩
          exact (depth_ok_mk _ _ _ _ _).2 ⟨hdn, hdrr, depth_eq_height hdn hdrr⟩
        · rw [balanced_mk, balanced_mk]
          simp only [height]
          exact ⟨⟨hbl, hbrl, by omega, by omega⟩, hbrr, by omega, by omega⟩
        · simp only [height]
          omega
  · refine ⟨_, _, remove_fix_keep d c i l1 r hb, rfl, ?_, ?_, ?_⟩ <;>
      rw [delta_eq_height hdl, delta_eq_height hdr, lt_abs] at hb
    · exact (depth_ok_mk _ _ _ _ _).2 ⟨hdl, hdr, depth_eq_height hdl hdr⟩
    · rw [balanced_mk]
      exact ⟨hbl, hbr, by omega, by omega⟩
    · simp only [height]
      omega

/-- On a non-empty balanced tree with correct stored heights `remove_min` does
not fault, and its result is balanced with correct stored heights and has the
height of the tree or one less. -/
theorem remove_min_avl (t : Node) (hne : t ≠ .null)
    (hd : depth_ok t = true) (hb : balanced t = true) :
    ∃ t1, remove_min t = some t1 ∧ depth_ok t1 = true ∧ balanced t1 = true ∧
      (height t1 = height t ∨ height t1 = height t - 1) := by
  induction t with
  | null => exact absurd rfl hne
  | mk d c i l r ihl ihr =>
    simp only [depth_ok_mk, balanced_mk] at hd hb
    obtain ⟨hdl, hdr, hdd⟩ := hd
    obtain ⟨hbl, hbr, hb1, hb2⟩ := hb
    cases l with
    | null =>
      refine ⟨r, rfl, hdr, hbr, Or.inr ?_⟩
      have := height_ge r
      simp only [height] at hb1 hb2 ⊢
      omega
    | mk ld lc li ll lr =>
      obtain ⟨l1, hm, hdl1, hbl1, hh⟩ := ihl (by simp) hdl hbl
      obtain ⟨t1, t2, e1, e2, hd2, hb2, hh2⟩ :=
        remove_fix_after_left d c i l1 r (height (.mk ld lc li ll lr)) hdl1 hbl1 hdr hbr
          ⟨hb1, hb2⟩ hh
      refine ⟨t2, ?_, hd2, hb2, ?_⟩
      · simp only [remove_min, hm, e1, e2]
      · simpa [height] using hh2


/-! ## Insertion of an item that is already in the tree -/

theorem delta_bump (x : Item) (t : Node) : delta (bump x t) = delta t := by
  cases t with
  | null => rfl
  | mk d c i l r =>
    simp only [bump]
    split
    · rfl
    · split <;> rfl

theorem depth_bump_left (x : Item) (l r : Node) : depth (bump x l) r = depth l r := by
  simp only [depth, delta_bump]

theorem depth_bump_right (x : Item) (l r : Node) : depth l (bump x r) = depth l r := by
  simp only [depth, delta_bump]

/-- On a balanced tree with correct stored heights and a sorted walk that
lists `x` with a count below the `uint64_t` maximum, `update` returns the tree
with that count raised by one and everything else as it was; the handle only
has its `items` counter advanced. -/
theorem update_present (x : Item) (c : Nat) (avl : Avl) (t : Node)
    (hd : depth_ok t = true) (hb : balanced t = true) (hs : ascending (traverse t))
    (he : entry x (traverse t) = some c) (hc : c + 1 < 2 ^ 64) :
    update avl t x =
      some (bump x t,
        { avl with state := { avl.state with items := (avl.state.items + 1) % 2 ^ 64 } }) := by
  induction t with
  | null => simp [entry] at he
  | mk d c1 i l r ihl ihr =>
    have hs0 := hs
    rw [traverse_mk, ascending_node] at hs
    obtain ⟨hL, hR, hLi, hRi, hLR⟩ := hs
    simp only [depth_ok_mk, balanced_mk] at hd hb
    obtain ⟨hdl, hdr, hdd⟩ := hd
    obtain ⟨hbl, hbr, hb1, hb2⟩ := hb
    have hdep : depth l r = d := by rw [depth_eq_height hdl hdr, hdd]
    have hk : ¬ 1 < |delta l - delta r| := by
      rw [delta_eq_height hdl, delta_eq_height hdr, lt_abs]
      omega
    rw [traverse_mk] at he
    by_cases h0 : strcmp x i = 0
    · have e : x = i := (strcmp_eq_zero x i).1 h0
      subst e
      rw [entry_node_eq x c1 _ _ hs0] at he
      injection he with he
      subst he
      simp only [update, bump, h0, if_true, hdep, Nat.mod_eq_of_lt hc]
    · by_cases hlt : 0 > strcmp x i
      · have hlt2 : strcmp x i < 0 := hlt
        rw [entry_node_lt x i c1 _ _ hs0 hlt] at he
        have hk2 : ¬ 1 < |delta (bump x l) - delta r| := by rw [delta_bump]; exact hk
        simp only [update, bump, h0, hlt, hlt2, if_true, if_false, ihl hdl hbl hL he,
          update_fix_left_keep x d c1 i (bump x l) r hk2, set_depth, depth_bump_left, hdep]
      · have hgt : 0 < strcmp x i := by omega
        have hlt2 : ¬ strcmp x i < 0 := by omega
        rw [entry_node_gt x i c1 _ _ hs0 hgt] at he
        have hk2 : ¬ 1 < |delta l - delta (bump x r)| := by rw [delta_bump]; exact hk
        simp only [update, bump, h0, hlt, hlt2, hgt, if_true, if_false, ihr hdr hbr hR he,
          update_fix_right_keep x d c1 i l (bump x r) hk2, set_depth, depth_bump_right, hdep]

theorem map_no_key (x : Item) (l : List (Item × Nat)) (h : ∀ p ∈ l, p.1 ≠ x) :
    l.map (fun p => if p.1 = x then (x, p.2 + 1) else p) = l := by
  induction l with
  | nil => rfl
  | cons q l ih =>
    have hq : ¬ q.1 = x := h q (List.mem_cons_self _ _)
    simp only [List.map_cons, hq, if_false]
    rw [ih (fun p hp => h p (List.mem_cons_of_mem _ hp))]

/-- The walk of the bumped tree: the entry of `x` has its count raised by one,
every other entry is as it was. -/
theorem traverse_bump (x : Item) (t : Node) (hs : ascending (traverse t)) :
    traverse (bump x t) = (traverse t).map (fun p => if p.1 = x then (x, p.2 + 1) else p) := by
  induction t with
  | null => rfl
  | mk d c i l r ihl ihr =>
    rw [traverse_mk, ascending_node] at hs
    obtain ⟨hL, hR, hLi, hRi, hLR⟩ := hs
    rw [traverse_mk, List.map_append, List.map_cons]
    by_cases h0 : strcmp x i = 0
    · have e : x = i := (strcmp_eq_zero x i).1 h0
      subst e
      simp only [bump, h0, if_true, traverse_mk]
      rw [map_no_key x _ (fun p hp => strcmp_ne_of_lt (hLi p hp)),
        map_no_key x _ (fun p hp => fun e1 => strcmp_ne_of_lt (hRi p hp) e1.symm)]
    · have hne : ¬ i = x := fun e => h0 ((strcmp_eq_zero x i).2 e.symm)
      by_cases hlt : strcmp x i < 0
      · simp only [bump, h0, hlt, if_true, if_false, traverse_mk, hne, ihl hL]
        rw [map_no_key x (traverse r) (fun p hp => fun e1 =>
          strcmp_ne_of_lt (strcmp_trans _ _ _ hlt (hRi p hp)) e1.symm)]
      · have hgt : 0 < strcmp x i := by omega
        simp only [bump, h0, hlt, if_false, traverse_mk, hne, ihr hR]
        rw [map_no_key x (traverse l) (fun p hp =>
          strcmp_ne_of_lt (strcmp_trans _ _ _ (hLi p hp) (strcmp_lt_of_pos hgt)))]

/-- Trees built by inserts from a zeroed state block keep the counters in
agreement with the walk, whether or not the allocations succeed. -/
theorem avl_insert_all_walk_inv (xs : List Item) (avl avl1 : Avl) (n : Nat)
    (hn : n + xs.length < 2 ^ 64)
    (hd : depth_ok avl.state.root = true) (hb : balanced avl.state.root = true)
    (hw : walk_inv (traverse avl.state.root) avl.state n)
    (h : avl_insert_all avl xs = some avl1) :
    walk_inv (traverse avl1.state.root) avl1.state (n + xs.length) := by
  induction xs generalizing avl n with
  | nil =>
    simp only [avl_insert_all, Option.some.injEq] at h
    subst h
    exact hw
  | cons x xs ih =>
    simp only [List.length_cons] at hn ⊢
    simp only [avl_insert_all] at h
    cases he : avl_insert avl x with
    | none => simp [he] at h
    | some q =>
    obtain ⟨ret, avl2⟩ := q
    simp only [he] at h
    obtain ⟨hd2, hb2, hs2, ha, hf⟩ := avl_insert_step avl x ret avl2 hd hb hw.1 he
    have hw2 : walk_inv (traverse avl2.state.root) avl2.state (n + 1) := by
      cases hq : update_allocs avl avl.state.root x with
      | true =>
        obtain ⟨-, htr, hi, hu⟩ := ha hq
        rw [htr]
        exact walk_inv_congr _ _ _ _ hi hu (walk_inv_ins x _ _ n hw (by omega))
      | false =>
        obtain ⟨htr, hi, hu⟩ := hf hq
        rw [htr]
        exact walk_inv_congr _ _ _ _ hi hu (walk_inv_mono _ _ n (n + 1) (Nat.le_succ n) hw)
    have h3 := ih avl2 (n + 1) (by omega) hd2 hb2 hw2 h
    have e : n + 1 + xs.length = n + (xs.length + 1) := by omega
    rw [e] at h3
    exact h3


/-! ## A write past the mapping -/

/-- The last `META_SIZE` bytes of the capacity are not mapped: with utilized
`4050` of `4096`, `scm_malloc` accepts a node that ends at heap offset `4090`,
past the `4072` mapped, and the `memset` of `update` faults. -/
theorem avl_insert_past_mapping :
    scm_malloc { sample_scm with size := 4050 } sizeof_node =
        some (0x600000000018 + 4050, { sample_scm with size := 4090 }) ∧
      scm_mapped { sample_scm with size := 4090 } (0x600000000018 + 4050) sizeof_node = false ∧
      avl_insert { sample_built with scm := { sample_scm with size := 4050 } } [6] = none :=
  ⟨by decide, by decide, by decide⟩

/-! ## The claims -/

/-- C1: starting from the empty tree, after each insert of a sequence of
`avl_insert` calls (after every prefix of the sequence whose calls complete;
a call that writes its new node or string outside the mapping faults and has
no state after it) every node of the tree has balance factor
`height(left) - height(right)` in `{-1, 0, 1}`, the height of an absent
subtree being `-1`.  This holds whether or not the region allocations
succeed. -/
theorem avl_insert_balanced (avl : Avl) (xs : List Item) (n : Nat) (avl1 : Avl)
    (h0 : avl.state.root = .null) (hrun : avl_insert_all avl (xs.take n) = some avl1) :
    balanced avl1.state.root = true :=
  (avl_insert_all_built (xs.take n) avl avl1 h0 hrun).2.1

theorem avl_insert_balanced_witness : balanced sample_built.state.root = true :=
  avl_insert_balanced sample_avl [[5], [3], [8], [2], [4], [7], [9], [1]] 7 sample_built rfl
    (by decide)

/-- C2: for every sequence of non-empty strings inserted with `avl_insert`
into an empty tree, the calls completing and all region allocations
succeeding, and every non-empty string `x`, `avl_exists` returns exactly the
number of times `x` occurs in the sequence (`k ≥ 1` for an item inserted `k`
times, `0` for one never inserted).  The counts are `uint64_t`: the sequence
is shorter than `2 ^ 64` calls. -/
theorem avl_exists_occurrences (avl : Avl) (xs : List Item) (x : Item) (avl1 : Avl)
    (h0 : avl.state.root = .null) (hx : x ≠ [])
    (hlen : xs.length < 2 ^ 64) (hal : avl_insert_all_allocs avl xs = true)
    (hrun : avl_insert_all avl xs = some avl1) :
    avl_exists avl1 x = some (xs.count x) := by
  obtain ⟨-, -, hs, hc, -⟩ :=
    avl_insert_all_listed xs avl avl1 [] (by simpa using hlen) hal (by rw [h0]; rfl)
      (by rw [h0]; rfl) (by rw [h0]; simp [ascending]) (by rw [h0]; simp [listed])
      (by rw [h0]; simp) hrun
  have hl : ¬ safe_strlen x = 0 := by
    cases x with
    | nil => exact absurd rfl hx
    | cons a s => simp [safe_strlen]
  simp only [avl_exists, hl, if_false]
  rw [exists_loop_listed x _ hs, hc x]
  simp

theorem avl_exists_occurrences_witness :
    avl_exists sample_words [99, 97, 116] =
      some (List.count [99, 97, 116]
        [[99, 97, 116], [100, 111, 103], [99, 97, 116], [98, 105, 114, 100]]) :=
  avl_exists_occurrences sample_avl
    [[99, 97, 116], [100, 111, 103], [99, 97, 116], [98, 105, 114, 100]] [99, 97, 116]
    sample_words rfl (by decide) (by decide) (by decide) (by decide)

/-- C3: for every sequence of non-empty strings inserted with `avl_insert`
into an empty tree, the calls completing and all region allocations
succeeding, in any order, `avl_traverse` calls the visitor with exactly the
distinct strings of the sequence, each once, in strictly ascending `strcmp`
order, each paired with its number of occurrences in the sequence.  The
counts are `uint64_t`: the sequence is shorter than `2 ^ 64` calls. -/
theorem avl_traverse_sorted_occurrences (avl : Avl) (xs : List Item) (avl1 : Avl)
    (h0 : avl.state.root = .null)
    (hlen : xs.length < 2 ^ 64) (hal : avl_insert_all_allocs avl xs = true)
    (hrun : avl_insert_all avl xs = some avl1) :
    ascending (avl_traverse avl1) ∧
      ∀ y c, (y, c) ∈ avl_traverse avl1 ↔ (y ∈ xs ∧ c = xs.count y) := by
  obtain ⟨-, -, hs, hc, hp⟩ :=
    avl_insert_all_listed xs avl avl1 [] (by simpa using hlen) hal (by rw [h0]; rfl)
      (by rw [h0]; rfl) (by rw [h0]; simp [ascending]) (by rw [h0]; simp [listed])
      (by rw [h0]; simp) hrun
  exact ⟨hs, fun y c => listed_mem_iff _ xs hs (by simpa using hc) hp y c⟩

theorem avl_traverse_sorted_occurrences_witness :
    (ascending (avl_traverse sample_words) ∧
      ∀ y c, (y, c) ∈ avl_traverse sample_words ↔
        (y ∈ ([[99, 97, 116], [100, 111, 103], [99, 97, 116], [98, 105, 114, 100]] :
            List Item) ∧
          c = List.count y [[99, 97, 116], [100, 111, 103], [99, 97, 116], [98, 105, 114, 100]])) ∧
    avl_traverse sample_words =
      [([98, 105, 114, 100], 1), ([99, 97, 116], 2), ([100, 111, 103], 1)] :=
  ⟨avl_traverse_sorted_occurrences sample_avl
      [[99, 97, 116], [100, 111, 103], [99, 97, 116], [98, 105, 114, 100]] sample_words
      rfl (by decide) (by decide) (by decide), by decide⟩

/-- C4: after every sequence of `avl_insert` and `avl_remove` calls starting
from a freshly initialised state block, all calls completing (none faults) and
all region allocations succeeding, `avl_unique` equals the number of nodes
reachable from the root and `avl_items` equals the sum of the occurrence
counts of those nodes.  The counters are `uint64_t`: the sequence is shorter
than `2 ^ 64` calls. -/
theorem avl_counters_agree (avl : Avl) (ks : List Call) (avl1 : Avl)
    (h0 : avl.state = { items := 0, unique := 0, root := .null })
    (hlen : ks.length < 2 ^ 64) (hrun : avl_calls avl ks = some avl1)
    (hal : avl_calls_allocs avl ks = true) :
    avl_unique avl1 = node_count avl1.state.root ∧
      avl_items avl1 = count_sum avl1.state.root := by
  have hw : walk_inv (traverse avl.state.root) avl.state 0 := by
    rw [h0]
    exact ⟨by simp [ascending], by simp, rfl, rfl, Nat.le_refl 0⟩
  obtain ⟨-, -, h3, h4, -⟩ := avl_calls_walk_inv ks avl avl1 0 (by omega) hrun hal hw
  exact ⟨by rw [node_count_traverse]; exact h3, by rw [count_sum_traverse]; exact h4⟩

theorem avl_counters_agree_witness :
    avl_unique
        { state :=
            { items := 3, unique := 2,
              root := Node.mk 1 2 [98] Node.null (Node.mk 0 1 [99] Node.null Node.null) },
          scm := { fd := 3, mem := 0x600000000018, size := 150, length := 4096 } } =
      node_count (Node.mk 1 2 [98] Node.null (Node.mk 0 1 [99] Node.null Node.null)) ∧
    avl_items
        { state :=
            { items := 3, unique := 2,
              root := Node.mk 1 2 [98] Node.null (Node.mk 0 1 [99] Node.null Node.null) },
          scm := { fd := 3, mem := 0x600000000018, size := 150, length := 4096 } } =
      count_sum (Node.mk 1 2 [98] Node.null (Node.mk 0 1 [99] Node.null Node.null)) :=
  avl_counters_agree sample_avl
    [Call.insert [98], Call.insert [97], Call.insert [99], Call.insert [98], Call.remove [97],
      Call.remove [100]]
    _ rfl (by decide) (by decide) (by decide)


/-- C5: for every tree built from empty by inserts and every item `x` present
in it with occurrence count `c`, if `avl_remove` of `x` completes (it does not
fault and the string duplication succeeds), then the in-order traversal
afterwards is the traversal before with the count of `x` replaced by `c - 1`
when `c > 1`, or with the entry of `x` deleted otherwise, every other entry
unchanged and the order still strictly ascending; `avl_exists` of `x` is then
`c - 1` and `avl_exists` of every other item is unchanged.  The one-child
splice and the two-children successor replacement are both covered. -/
theorem avl_remove_walk (avl0 : Avl) (xs : List Item) (avl : Avl) (x : Item) (c : Nat)
    (ret : Int) (avl1 : Avl) (h0 : avl0.state.root = .null)
    (hb : avl_insert_all avl0 xs = some avl) (hx : (x, c) ∈ avl_traverse avl)
    (hrm : avl_remove avl x = some (ret, avl1))
    (hal : remove_allocs avl avl.state.root x = true) :
    avl_traverse avl1 =
        (if 1 < c then (avl_traverse avl).map (fun p => if p.1 = x then (x, c - 1) else p)
         else (avl_traverse avl).filter (fun p => decide (p.1 ≠ x))) ∧
      ascending (avl_traverse avl1) ∧
      avl_exists avl1 x = some (c - 1) ∧
      ∀ y, y ≠ x → avl_exists avl1 y = avl_exists avl y := by
  obtain ⟨-, -, hs⟩ := avl_insert_all_built xs avl0 avl h0 hb
  obtain ⟨-, -, htr⟩ := avl_remove_traverse avl x ret avl1 hs hrm hal
  have hent : entry x (traverse avl.state.root) = some c := entry_of_mem x c _ hs hx
  have hs1 : ascending (traverse avl1.state.root) := by
    rw [htr]; exact del_list_ascending x _ hs
  have hxne : ¬ safe_strlen x = 0 := by
    intro e
    cases x with
    | nil => simp [avl_remove] at hrm
    | cons a s => simp [safe_strlen] at e
  refine ⟨?_, hs1, ?_, ?_⟩
  · show traverse avl1.state.root = _
    rw [htr]
    by_cases hc : 1 < c
    · simp only [hc, if_true]
      exact del_list_eq_map x c _ hs hent hc
    · simp only [hc, if_false]
      exact del_list_eq_filter x c _ hs hent hc
  · simp only [avl_exists, hxne, if_false]
    rw [exists_loop_listed x _ hs1, htr, listed_del_list_self x c _ hs hent]
  · intro y hy
    simp only [avl_exists]
    split
    · rfl
    · rw [exists_loop_listed y _ hs1, exists_loop_listed y _ hs, htr,
        listed_del_list_ne x y _ hy]

theorem avl_remove_walk_witness :
    avl_traverse sample_removed =
        (if 1 < 1 then
          (avl_traverse sample_built).map (fun p => if p.1 = [5] then ([5], 1 - 1) else p)
         else (avl_traverse sample_built).filter (fun p => decide (p.1 ≠ [5]))) ∧
      ascending (avl_traverse sample_removed) ∧
      avl_exists sample_removed [5] = some (1 - 1) ∧
      ∀ y, y ≠ [5] → avl_exists sample_removed y = avl_exists sample_built y :=
  avl_remove_walk sample_avl [[5], [3], [8], [2], [4], [7], [9]] sample_built [5] 1 0
    sample_removed rfl (by decide) (by decide) (by decide) (by decide)


/-- C6 fails on the code: the tree built by the inserts `5, 3, 8, 2, 4, 9, 1`
is balanced with correct stored heights; `avl_remove` of `9` completes and
returns `0`, but the left-heavy root is rotated to the left, and the resulting
tree is not balanced (its root `8` has a left subtree of height `3` and no
right subtree). -/
theorem avl_remove_breaks_balance :
    ∃ avl avl1, avl_insert_all sample_avl [[5], [3], [8], [2], [4], [9], [1]] = some avl ∧
      depth_ok avl.state.root = true ∧ balanced avl.state.root = true ∧
      avl_remove avl [9] = some (0, avl1) ∧ balanced avl1.state.root = false ∧
      avl1.state.root =
        Node.mk 4 1 [8]
          (Node.mk 3 1 [5]
            (Node.mk 2 1 [3]
              (Node.mk 1 1 [2] (Node.mk 0 1 [1] Node.null Node.null) Node.null)
              (Node.mk 0 1 [4] Node.null Node.null))
            Node.null)
          Node.null :=
  ⟨_, _, rfl, by decide, by decide, rfl, by decide, rfl⟩

/-- C7 fails on the code: in the tree built by the inserts `3, 2, 4, 1`,
`avl_remove` of `4` splices the right leaf out, the root is then left-heavy
by two, and `remove_node` evaluates `balance(node->right)` on the NULL right
child: the call faults. -/
theorem avl_remove_faults :
    ∃ avl, avl_insert_all sample_avl [[3], [2], [4], [1]] = some avl ∧
      avl.state.root =
        Node.mk 2 1 [3] (Node.mk 1 1 [2] (Node.mk 0 1 [1] Node.null Node.null) Node.null)
          (Node.mk 0 1 [4] Node.null Node.null) ∧
      balance Node.null = none ∧
      avl_remove avl [4] = none :=
  ⟨_, rfl, rfl, rfl, by decide⟩

/-- C8: for every tree built from empty by inserts and every non-empty item
that is not in the tree, `avl_remove` does not fault and is a no-op: the
handle after the call is the handle before it, so the tree (structure,
strings, counts, stored heights), the counters `items` and `unique` and the
utilized size of the region are all unchanged. -/
theorem avl_remove_absent (avl0 : Avl) (xs : List Item) (avl : Avl) (x : Item)
    (h0 : avl0.state.root = .null) (hb : avl_insert_all avl0 xs = some avl) (hx : x ≠ [])
    (habs : ∀ p ∈ avl_traverse avl, p.1 ≠ x) :
    ∃ ret, avl_remove avl x = some (ret, avl) := by
  obtain ⟨hd, hbal, -⟩ := avl_insert_all_built xs avl0 avl h0 hb
  simp only [avl_remove, hx, if_false]
  by_cases hr : avl.state.root = .null
  · exact ⟨-1, by simp [hr]⟩
  · refine ⟨0, ?_⟩
    simp only [hr, if_false]
    rw [remove_node_absent x avl _ hd hbal habs]

theorem avl_remove_absent_witness :
    ∃ ret, avl_remove sample_built [6] = some (ret, sample_built) :=
  avl_remove_absent sample_avl [[5], [3], [8], [2], [4], [7], [9]] sample_built [6] rfl
    (by decide) (by decide) (by decide)

/-- C9 fails on the code: with a one-node tree and a region too full for a
new node, the allocation in `update` fails, `update` returns NULL to its
caller `update`, which stores it in the (already NULL) child and returns the
non-NULL root; `avl_insert` then returns `0`, not `-1`.  (Tree and counters
are unchanged.) -/
theorem avl_insert_hides_failure :
    scm_malloc { sample_scm with size := 4090 } sizeof_node = none ∧
      update_allocs
        { state := { items := 1, unique := 1, root := Node.mk 0 1 [2] Node.null Node.null },
          scm := { sample_scm with size := 4090 } }
        (Node.mk 0 1 [2] Node.null Node.null) [1] = false ∧
      avl_insert
        { state := { items := 1, unique := 1, root := Node.mk 0 1 [2] Node.null Node.null },
          scm := { sample_scm with size := 4090 } } [1] =
        some (0,
          { state := { items := 1, unique := 1, root := Node.mk 0 1 [2] Node.null Node.null },
            scm := { sample_scm with size := 4090 } }) :=
  ⟨by decide, by decide, by decide⟩

/-- C10 fails on the code: on a file whose header is all zero (signature `0`,
not `0xDEEDBEED`), and on one with the right signature and a wrong checksum,
`load_metadata` returns `-1`, but `scm_open` without truncate discards that
result and returns a handle, with utilized size `0`. -/
theorem scm_open_ignores_bad_header :
    (load_metadata { fd := 3, mem := 0x600000000000, size := 0, length := 4096 }
        { size := 0, signature := 0, checksum := 0 }).1 = -1 ∧
      scm_open
        { malloc_ok := true, open_fd := 3, is_reg := true, st_size := 4096, page := 4096,
          brk := 0x555555560000, zero_ok := true, mmap_ok := true,
          header := { size := 0, signature := 0, checksum := 0 } } false =
        some ({ fd := 3, mem := 0x600000000018, size := 0, length := 4096 },
          { size := 0, signature := 0, checksum := 0 }) ∧
      (load_metadata { fd := 3, mem := 0x600000000000, size := 0, length := 4096 }
        { size := 64, signature := 0xDEEDBEED, checksum := 0 }).1 = -1 ∧
      scm_open
        { malloc_ok := true, open_fd := 3, is_reg := true, st_size := 4096, page := 4096,
          brk := 0x555555560000, zero_ok := true, mmap_ok := true,
          header := { size := 64, signature := 0xDEEDBEED, checksum := 0 } } false =
        some ({ fd := 3, mem := 0x600000000018, size := 0, length := 4096 },
          { size := 64, signature := 0xDEEDBEED, checksum := 0 }) :=
  ⟨by decide, by decide, by decide, by decide⟩


/-- C11 fails on the code: with utilized `24` of capacity `4096` and the
request `n = 2 ^ 64 - 8`, the mathematical sum `24 + n` exceeds the capacity,
but the `size_t` sum wraps to `16`, the test `scm->size + n <= scm->length`
passes, and `scm_malloc` returns heap base `+ 24` and sets utilized to `16`. -/
theorem scm_malloc_wraps :
    (24 : Nat) ≤ 4096 ∧ 2 ^ 64 - 8 < 2 ^ 64 ∧ ¬ (24 + (2 ^ 64 - 8) ≤ 4096) ∧
      scm_malloc { fd := 3, mem := 0x600000000018, size := 24, length := 4096 } (2 ^ 64 - 8) =
        some (0x600000000018 + 24,
          { fd := 3, mem := 0x600000000018, size := 16, length := 4096 }) :=
  ⟨by decide, by decide, by decide, by decide⟩

/-- C12 fails on the code: for a file of 4096 bytes (one page) opened with
truncate, the mapping is 4096 bytes from `0x600000000000`, the heap base is 24
bytes further, and the ceiling `scm_capacity` is the whole 4096, not
`4096 - 24`; `scm_malloc` of 4096 bytes succeeds and the range it returns ends
24 bytes past the end of the mapping. -/
theorem scm_capacity_overruns_mapping :
    ∃ scm hdr p scm1, scm_open sample_os true = some (scm, hdr) ∧
      scm_mbase scm = 0x600000000000 + META_SIZE ∧
      scm_capacity scm = 4096 ∧ scm_capacity scm ≠ 4096 - META_SIZE ∧
      scm_malloc scm 4096 = some (p, scm1) ∧
      p + 4096 = 0x600000000000 + 4096 + 24 ∧
      ¬ (p + 4096 ≤ 0x600000000000 + 4096) :=
  ⟨_, _, _, _, rfl, by decide, by decide, by decide, rfl, by decide, by decide⟩

/-- C13 fails on the code as stated: a header with the right signature and a
matching checksum whose size field is `8192` is accepted by `load_metadata` on
a region of capacity `4096`, and the utilized size is then above the capacity,
also in the handle `scm_open` returns. -/
theorem load_metadata_accepts_oversize :
    load_metadata { fd := 3, mem := 0x600000000000, size := 0, length := 4096 }
        { size := 8192, signature := SCM_SIGNATURE,
          checksum := calculate_checksum
            { size := 8192, signature := SCM_SIGNATURE, checksum := 0 } } =
      (0, { fd := 3, mem := 0x600000000000, size := 8192, length := 4096 }) ∧
    ¬ ((8192 : Nat) ≤ 4096) ∧
    ∃ scm hdr, scm_open
        { sample_os with header :=
            { size := 8192, signature := SCM_SIGNATURE,
              checksum := calculate_checksum
                { size := 8192, signature := SCM_SIGNATURE, checksum := 0 } } } false =
        some (scm, hdr) ∧ ¬ (scm_utilized scm ≤ scm_capacity scm) :=
  ⟨by decide, by decide, _, _, rfl, by decide⟩

/-- C13 as amended: the utilized size is within the capacity after
`initialize_metadata`; after `load_metadata` accepts a header it is the size
field of that header, hence within the capacity exactly when that field is;
and after every `scm_malloc` and `scm_strdup` call on a handle whose utilized
size is within the capacity it is again within the capacity. -/
theorem utilized_within_capacity (scm : Scm) (m : Metadata) (r : Request)
    (h : scm.size ≤ scm.length) :
    (initialize_metadata scm m).1.size ≤ (initialize_metadata scm m).1.length ∧
      ((load_metadata scm m).1 = 0 →
        (load_metadata scm m).2.size = m.size ∧ (load_metadata scm m).2.length = scm.length ∧
          ((load_metadata scm m).2.size ≤ (load_metadata scm m).2.length ↔
            m.size ≤ scm.length)) ∧
      (scm_after scm r).size ≤ (scm_after scm r).length := by
  refine ⟨Nat.zero_le _, ?_, ?_⟩
  · intro h0
    simp only [load_metadata] at h0 ⊢
    split
    · rename_i hs; simp [hs] at h0
    · split
      · rename_i hs hc; simp [hs, hc] at h0
      · exact ⟨rfl, rfl, Iff.rfl⟩
  · cases r with
    | malloc n =>
      simp only [scm_after]
      cases hr : scm_malloc scm n with
      | none => exact h
      | some q =>
        obtain ⟨p, scm1⟩ := q
        exact (scm_malloc_within scm n p scm1 hr).1
    | strdup s =>
      simp only [scm_after]
      cases hr : scm_malloc scm ((s.length + 1) % 2 ^ 64) with
      | none => exact h
      | some q =>
        obtain ⟨p, scm1⟩ := q
        exact (scm_malloc_within scm _ p scm1 hr).1

theorem utilized_within_capacity_witness :
    (24 : Nat) ≤ 4096 ∧
      (scm_after { fd := 3, mem := 0x600000000018, size := 24, length := 4096 }
          (Request.strdup [99, 97, 116])).size ≤
        (scm_after { fd := 3, mem := 0x600000000018, size := 24, length := 4096 }
          (Request.strdup [99, 97, 116])).length :=
  ⟨by decide,
    (utilized_within_capacity { fd := 3, mem := 0x600000000018, size := 24, length := 4096 }
      { size := 24, signature := SCM_SIGNATURE, checksum := 0 }
      (Request.strdup [99, 97, 116]) (by decide)).2.2⟩


/-- C14: header round trip.  For a header that carries the valid signature
and every utilized size of the handle, `load_metadata` on the header written
by `store_metadata` succeeds (returns `0`) and sets the utilized size to
exactly the stored value.  Hence, when the calls to the operating system
succeed, `scm_open` without truncate on the file left by `avl_close` returns a
handle with the same utilized size, at the same heap base for the same page
size, and `avl_open` on that file, the size not being zero, returns the state
block and tree of the handle that was closed: traversal and lookups of the
reopened index are those of the closed one. -/
theorem header_round_trip (avl : Avl) (scm1 : Scm) (m : Metadata) (os : Os)
    (hsig : m.signature = SCM_SIGNATURE)
    (hmalloc : os.malloc_ok = true) (hfd : os.open_fd ≠ -1) (hreg : os.is_reg = true)
    (hlen : (os.st_size / os.page) * os.page ≠ 0)
    (hbrk : ¬ (((VM_ADDR / os.page) * os.page : Nat) : Int) < os.brk)
    (hmmap : os.mmap_ok = true) (hhdr : os.header = (avl_close avl m).header)
    (hused : avl.scm.size ≠ 0) :
    load_metadata scm1 (store_metadata avl.scm m) = (0, { scm1 with size := avl.scm.size }) ∧
      scm_open os false =
        some ({ fd := os.open_fd, mem := (VM_ADDR / os.page) * os.page + META_SIZE,
                size := avl.scm.size, length := (os.st_size / os.page) * os.page },
          (avl_close avl m).header) ∧
      ∃ avl2, avl_open os true (avl_close avl m).state false = some (some avl2) ∧
        avl2.state = avl.state ∧
        avl2.scm =
          { fd := os.open_fd, mem := (VM_ADDR / os.page) * os.page + META_SIZE,
            size := avl.scm.size, length := (os.st_size / os.page) * os.page } ∧
        avl_traverse avl2 = avl_traverse avl ∧
        (∀ x, avl_exists avl2 x = avl_exists avl x) ∧
        avl_items avl2 = avl_items avl ∧ avl_unique avl2 = avl_unique avl := by
  have hload : ∀ s : Scm, ∀ s0 : Scm,
      load_metadata s (store_metadata s0 m) = (0, { s with size := s0.size }) := by
    intro s s0
    simp [load_metadata, store_metadata, calculate_checksum, hsig]
  have hopen : scm_open os false =
      some ({ fd := os.open_fd, mem := (VM_ADDR / os.page) * os.page + META_SIZE,
              size := avl.scm.size, length := (os.st_size / os.page) * os.page },
        (avl_close avl m).header) := by
    unfold scm_open file_size
    simp only [hmalloc, hreg, hmmap, hhdr, avl_close, scm_close, hload, Bool.not_true,
      Bool.false_eq_true, if_false, if_true, hfd, hlen, hbrk, Bool.false_and, ne_eq,
      not_false_eq_true, not_true_eq_false, Int.toNat_ofNat]
    rw [if_neg (by decide)]
  refine ⟨hload scm1 avl.scm, hopen,
    { state := avl.state,
      scm := { fd := os.open_fd, mem := (VM_ADDR / os.page) * os.page + META_SIZE,
               size := avl.scm.size, length := (os.st_size / os.page) * os.page } },
    ?_, rfl, rfl, rfl, fun _ => rfl, rfl, rfl⟩
  simp [avl_open, hopen, scm_utilized, hused, avl_close]

theorem header_round_trip_witness :
    load_metadata { fd := 3, mem := 0x600000000000, size := 0, length := 4096 }
        (store_metadata sample_built.scm sample_header) =
      (0, { fd := 3, mem := 0x600000000000, size := 318, length := 4096 }) ∧
    avl_open sample_os_again true (avl_close sample_built sample_header).state false =
      some (some sample_built) :=
  ⟨(header_round_trip sample_built { fd := 3, mem := 0x600000000000, size := 0, length := 4096 }
      sample_header sample_os_again rfl rfl (by decide) rfl (by decide) (by decide) rfl rfl
      (by decide)).1,
    by
      obtain ⟨avl2, h1, h2, h3, -⟩ :=
        (header_round_trip sample_built
          { fd := 3, mem := 0x600000000000, size := 0, length := 4096 }
          sample_header sample_os_again rfl rfl (by decide) rfl (by decide) (by decide) rfl rfl
          (by decide)).2.2
      have e : avl2 = sample_built := by
        cases avl2 with
        | mk st sc =>
          simp only at h2 h3
          subst h2 h3
          rfl
      rw [h1, e]⟩

/-- C20: for every region handle and every two successful `scm_malloc` or
`scm_strdup` calls made in sequence, with sizes `n1` and `n2` whose sums with
the utilized size do not wrap around `2 ^ 64`, the second returned range
starts at or after the end of the first, so the two byte ranges are disjoint;
the failed calls in between leave the handle, and so the cursor, as it was. -/
theorem scm_ranges_disjoint (scm : Scm) (r1 r2 : Request) (rs : List Request)
    (p1 p2 : Nat) (scm1 scm2 : Scm)
    (hn1 : scm.size + request_size r1 < 2 ^ 64)
    (h1 : scm_request scm r1 = some (some (p1, scm1)))
    (hf : ∀ r ∈ rs, scm_request scm1 r = some none)
    (hn2 : scm1.size + request_size r2 < 2 ^ 64)
    (h2 : scm_request (rs.foldl scm_after scm1) r2 = some (some (p2, scm2))) :
    rs.foldl scm_after scm1 = scm1 ∧
      p1 = scm_mbase scm + scm_utilized scm ∧
      p1 + request_size r1 ≤ p2 ∧
      ∀ a, ¬ ((p1 ≤ a ∧ a < p1 + request_size r1) ∧ (p2 ≤ a ∧ a < p2 + request_size r2)) := by
  have hfail := scm_after_failed scm1 rs hf
  rw [hfail] at h2
  obtain ⟨e1, e2⟩ := scm_request_no_wrap scm r1 p1 scm1 hn1 h1
  obtain ⟨e3, e4⟩ := scm_request_no_wrap scm1 r2 p2 scm2 hn2 h2
  subst e1 e2 e3
  refine ⟨hfail, rfl, ?_, ?_⟩
  · show scm.mem + scm.size + request_size r1 ≤ scm.mem + (scm.size + request_size r1)
    omega
  · intro a
    show ¬ ((scm.mem + scm.size ≤ a ∧ a < scm.mem + scm.size + request_size r1) ∧
      (scm.mem + (scm.size + request_size r1) ≤ a ∧
        a < scm.mem + (scm.size + request_size r1) + request_size r2))
    omega

theorem scm_ranges_disjoint_witness :
    (List.foldl scm_after { sample_scm with size := 64 } [Request.malloc 5000] =
        { sample_scm with size := 64 }) ∧
      0x600000000018 + 24 + request_size (Request.malloc 40) ≤ 0x600000000018 + 64 :=
  ⟨(scm_ranges_disjoint { sample_scm with size := 24 } (Request.malloc 40)
      (Request.strdup [99, 97, 116]) [Request.malloc 5000] (0x600000000018 + 24)
      (0x600000000018 + 64) { sample_scm with size := 64 } { sample_scm with size := 68 }
      (by decide) (by decide) (by decide) (by decide) (by decide)).1,
    (scm_ranges_disjoint { sample_scm with size := 24 } (Request.malloc 40)
      (Request.strdup [99, 97, 116]) [Request.malloc 5000] (0x600000000018 + 24)
      (0x600000000018 + 64) { sample_scm with size := 64 } { sample_scm with size := 68 }
      (by decide) (by decide) (by decide) (by decide) (by decide)).2.2.1⟩


/-- C16 fails on the code: the tree built by the inserts `5, 3, 7, 4` is not
empty, yet `avl_remove` of `7` returns neither `0` nor `-1`: after the leaf `7`
is spliced out the root is left-heavy by two and `remove_node` evaluates
`balance(node->right)` on the NULL right child, so the call faults.  (On the
empty tree the call does return `-1` and leaves the handle as it was.) -/
theorem avl_remove_no_return :
    ∃ avl, avl_insert_all sample_avl [[5], [3], [7], [4]] = some avl ∧
      avl.state.root =
        Node.mk 2 1 [5] (Node.mk 1 1 [3] Node.null (Node.mk 0 1 [4] Node.null Node.null))
          (Node.mk 0 1 [7] Node.null Node.null) ∧
      avl.state.root ≠ Node.null ∧
      avl_remove avl [7] = none ∧
      avl_remove sample_avl [7] = some (-1, sample_avl) :=
  ⟨_, rfl, rfl, by decide, by decide, by decide⟩

/-- C18 fails on the code: on the seven-node tree `sample_built` in a region
that is full, `avl_remove` of the root item `5` (count `1`, two children)
cannot duplicate the successor's string; `remove_node` returns NULL,
`avl_remove` stores it as the new root and returns `0`: no failure is
reported, the whole tree is lost and the counters still say `7`. -/
theorem avl_remove_drops_tree :
    scm_strdup { sample_scm with size := 4096 } [7] = some none ∧
      remove_allocs { sample_built with scm := { sample_scm with size := 4096 } }
        sample_built.state.root [5] = false ∧
      avl_remove { sample_built with scm := { sample_scm with size := 4096 } } [5] =
        some (0,
          { state := { items := 7, unique := 7, root := Node.null },
            scm := { sample_scm with size := 4096 } }) ∧
      avl_traverse sample_built ≠ [] :=
  ⟨by decide, by decide, by decide, by decide⟩


/-- C17: starting from the empty tree, after every `avl_insert` and every
completed `avl_remove` of a sequence of calls (after every prefix of the
sequence whose calls complete), each node's stored `depth` field equals the
true height of its subtree: `1 + max(height(left), height(right))` with `-1`
for an absent subtree, hence `0` for a leaf.  This covers the nodes touched by
single and double rotations, also the rotations removal applies to the wrong
side, and it does not need the allocations to succeed. -/
theorem stored_depth_correct (avl : Avl) (ks : List Call) (n : Nat) (avl1 : Avl)
    (h0 : avl.state.root = .null) (hrun : avl_calls avl (ks.take n) = some avl1) :
    depth_ok avl1.state.root = true :=
  avl_calls_depth_ok (ks.take n) avl avl1 (by rw [h0]; rfl) hrun

theorem stored_depth_correct_witness : depth_ok sample_unbalanced.state.root = true :=
  stored_depth_correct sample_avl
    [Call.insert [5], Call.insert [3], Call.insert [8], Call.insert [2], Call.insert [4],
      Call.insert [9], Call.insert [1], Call.remove [9], Call.remove [1]]
    8 sample_unbalanced rfl (by decide)


/-- C19: for every non-empty tree that is strictly ordered, AVL-balanced and
has correct stored heights, `remove_min` completes without touching an absent
child and returns a tree that is again AVL-balanced with correct stored
heights and whose in-order sequence is the original one with its first entry
removed; that entry is smaller than all that remain and is the node returned
by `find_next_min_node`. -/
theorem remove_min_correct (t : Node) (hne : t ≠ .null) (hs : ascending (traverse t))
    (hd : depth_ok t = true) (hb : balanced t = true) :
    ∃ t1 md mc mi ml mr, remove_min t = some t1 ∧ depth_ok t1 = true ∧
      balanced t1 = true ∧ find_next_min_node t = .mk md mc mi ml mr ∧
      traverse t = (mi, mc) :: traverse t1 ∧ ascending (traverse t1) ∧
      ∀ p ∈ traverse t1, strcmp mi p.1 < 0 := by
  obtain ⟨t1, hm, hd1, hb1, -⟩ := remove_min_avl t hne hd hb
  obtain ⟨md, mc, mi, ml, mr, hf, htr⟩ := remove_min_traverse t t1 hm
  rw [htr, ascending_cons] at hs
  exact ⟨t1, md, mc, mi, ml, mr, hm, hd1, hb1, hf, htr, hs.2, hs.1⟩

theorem remove_min_correct_witness :
    ∃ t1 md mc mi ml mr,
      remove_min
          (Node.mk 2 1 [2] (Node.mk 0 1 [1] Node.null Node.null)
            (Node.mk 1 1 [4] (Node.mk 0 1 [3] Node.null Node.null)
              (Node.mk 0 1 [5] Node.null Node.null))) = some t1 ∧
      depth_ok t1 = true ∧ balanced t1 = true ∧
      find_next_min_node
          (Node.mk 2 1 [2] (Node.mk 0 1 [1] Node.null Node.null)
            (Node.mk 1 1 [4] (Node.mk 0 1 [3] Node.null Node.null)
              (Node.mk 0 1 [5] Node.null Node.null))) = .mk md mc mi ml mr ∧
      traverse
          (Node.mk 2 1 [2] (Node.mk 0 1 [1] Node.null Node.null)
            (Node.mk 1 1 [4] (Node.mk 0 1 [3] Node.null Node.null)
              (Node.mk 0 1 [5] Node.null Node.null))) = (mi, mc) :: traverse t1 ∧
      ascending (traverse t1) ∧ ∀ p ∈ traverse t1, strcmp mi p.1 < 0 :=
  remove_min_correct
    (Node.mk 2 1 [2] (Node.mk 0 1 [1] Node.null Node.null)
      (Node.mk 1 1 [4] (Node.mk 0 1 [3] Node.null Node.null)
        (Node.mk 0 1 [5] Node.null Node.null)))
    (by decide) (by unfold ascending; decide) (by decide) (by decide)


/-- C15: for every tree built from empty by inserts (from a freshly
initialised state block) and every non-empty item `x` already present in it
with count `c`, `avl_insert` of `x` returns `0`, raises the count of that node
by one and the `items` counter by one, and changes nothing else: the tree
structure, all strings, all other counts, all stored heights, the `unique`
counter and the region (so its utilized size) are unchanged.  The counters
are `uint64_t`: this insert included, fewer than `2 ^ 64` calls were made. -/
theorem avl_insert_present (avl0 : Avl) (xs : List Item) (avl : Avl) (x : Item) (c : Nat)
    (h0 : avl0.state = { items := 0, unique := 0, root := .null })
    (hb : avl_insert_all avl0 xs = some avl) (hlen : xs.length + 1 < 2 ^ 64)
    (hx0 : x ≠ []) (hx : (x, c) ∈ avl_traverse avl) :
    avl_insert avl x =
        some (0,
          { state := { items := avl.state.items + 1, unique := avl.state.unique,
                       root := bump x avl.state.root },
            scm := avl.scm }) ∧
      avl_traverse
          { state := { items := avl.state.items + 1, unique := avl.state.unique,
                       root := bump x avl.state.root },
            scm := avl.scm } =
        (avl_traverse avl).map (fun p => if p.1 = x then (x, p.2 + 1) else p) ∧
      (x, c + 1) ∈ (avl_traverse avl).map (fun p => if p.1 = x then (x, p.2 + 1) else p) := by
  have hroot : avl0.state.root = .null := by rw [h0]
  obtain ⟨hd, hbal, hs⟩ := avl_insert_all_built xs avl0 avl hroot hb
  have hw0 : walk_inv (traverse avl0.state.root) avl0.state 0 := by
    rw [h0]
    exact ⟨by simp [ascending], by simp, rfl, rfl, Nat.le_refl 0⟩
  have hw := avl_insert_all_walk_inv xs avl0 avl 0 (by omega) (by rw [hroot]; rfl)
    (by rw [hroot]; rfl) hw0 hb
  obtain ⟨-, -, -, hi, hin⟩ := hw
  have hent : entry x (traverse avl.state.root) = some c := entry_of_mem x c _ hs hx
  have hcs : c ≤ avl.state.items := by
    have h1 := listed_le_sum x (traverse avl.state.root)
    rw [listed_eq_entry, hent] at h1
    rw [hi]
    exact h1
  have hup := update_present x c avl avl.state.root hd hbal hs hent (by omega)
  have hxl : ¬ safe_strlen x = 0 := by
    cases x with
    | nil => exact absurd rfl hx0
    | cons a s => simp [safe_strlen]
  have him : (avl.state.items + 1) % 2 ^ 64 = avl.state.items + 1 :=
    Nat.mod_eq_of_lt (by omega)
  have hbn : ∀ t : Node, t ≠ .null → bump x t ≠ .null := by
    intro t ht
    cases t with
    | null => exact absurd rfl ht
    | mk d c1 i l r =>
      simp only [bump]
      split
      · simp
      · split <;> simp
  have hrn : avl.state.root ≠ .null := by
    intro e
    have hx2 : (x, c) ∈ traverse avl.state.root := hx
    rw [e] at hx2
    simp at hx2
  refine ⟨?_, traverse_bump x _ hs, ?_⟩
  · simp only [avl_insert, hxl, if_false, hup, him]
    cases hbt : bump x avl.state.root with
    | null => exact absurd hbt (hbn _ hrn)
    | mk d c1 i l r => rfl
  · exact List.mem_map.2 ⟨(x, c), hx, by simp⟩

theorem avl_insert_present_witness :
    avl_insert sample_built [4] =
      some (0,
        { state := { items := sample_built.state.items + 1,
                     unique := sample_built.state.unique,
                     root := bump [4] sample_built.state.root },
          scm := sample_built.scm }) :=
  (avl_insert_present sample_avl [[5], [3], [8], [2], [4], [7], [9]] sample_built [4] 1 rfl
    (by decide) (by decide) (by decide) (by decide)).1

end SCM
